import Mathlib

/-!
Verification of the doculog changelog engine (`doculog/changelog.py`,
`doculog/requests.py`) against its natural-language specification.

The Python code is shallowly embedded: strings are manipulated as `List Char`
(mirroring Python string methods), dictionaries keyed by strings become
association lists (`List (String × _)`), and the external collaborators
(git history, the classification HTTP service, the file system) become
explicit parameters.  Machine-level hashing (SHA-224) is implemented over
`Nat` with explicit `% 2 ^ 32` arithmetic.

The file is laid out as definitions first (the embedding), then theorems.
-/

namespace Doculog

/-! ## Definitions

### Python string primitives

`isPySpace` mirrors Python's notion of whitespace for `str.strip` and the
regex class `\s` (restricted to the ASCII range, which is all the source
ever feeds it). -/

def isPySpace (c : Char) : Bool :=
  c == ' ' || c == '\t' || c == '\n' || c == '\r' || c == '\x0b' || c == '\x0c'

/-- Python `str.rstrip()` on a character list. -/
def rstripL (l : List Char) : List Char :=
  (l.reverse.dropWhile isPySpace).reverse

/-- Python `str.lstrip()` on a character list. -/
def lstripL (l : List Char) : List Char :=
  l.dropWhile isPySpace

/-- Python `str.strip()` on a character list. -/
def stripL (l : List Char) : List Char :=
  rstripL (lstripL l)

def pyRStrip (s : String) : String := ⟨rstripL s.data⟩

def pyStrip (s : String) : String := ⟨stripL s.data⟩

/-- Python `str.lstrip("#")`: remove every leading `'#'`. -/
def pyLStripHash (s : String) : String := ⟨s.data.dropWhile (· == '#')⟩

/-- Python `str.lstrip("v")`: remove every leading `'v'`. -/
def pyLStripV (s : String) : String := ⟨s.data.dropWhile (· == 'v')⟩

/-- ASCII lower-casing of one character (what Python `str.lower` does on the
ASCII titles this program handles). -/
def pyLowerChar (c : Char) : Char :=
  if 'A' ≤ c && c ≤ 'Z' then Char.ofNat (c.toNat + 32) else c

def pyUpperChar (c : Char) : Char :=
  if 'a' ≤ c && c ≤ 'z' then Char.ofNat (c.toNat - 32) else c

def pyLower (s : String) : String := ⟨s.data.map pyLowerChar⟩

/-- Python `str.capitalize()`: first character upper-cased, the rest
lower-cased. -/
def pyCapitalize (s : String) : String :=
  match s.data with
  | [] => ""
  | c :: rest => ⟨pyUpperChar c :: rest.map pyLowerChar⟩

/-- Python `s.split(" ")[0]`: the characters before the first space. -/
def firstWord (s : String) : String := ⟨s.data.takeWhile (· ≠ ' ')⟩

/-- `re.match(r"\s*[\*-]\s", line)`: optional whitespace run, a bullet
marker, then one whitespace character. -/
def isBullet (s : String) : Bool :=
  match s.data.dropWhile isPySpace with
  | c :: d :: _ => (c == '*' || c == '-') && isPySpace d
  | _ => false

/-- `re.match(r"#+\s", line)`: at least one `'#'` followed by a whitespace
character. -/
def isHeading (s : String) : Bool :=
  match s.data with
  | '#' :: rest =>
    match rest.dropWhile (· == '#') with
    | d :: _ => isPySpace d
    | [] => false
  | _ => false

/-! ### `ChangelogSection` -/

/-- `ChangelogSection.add_commit`: prepend `"* "` when the text is not
already a bullet, then append the right-stripped line. -/
def addCommit (commits : List String) (commitTitle : String) : List String :=
  let t := if isBullet commitTitle then commitTitle else "* " ++ commitTitle
  commits ++ [pyRStrip t]

/-- `ChangelogSection.has_content`. -/
def hasContent (commits : List String) : Bool := commits.length > 0

/-- `ChangelogSection.remove_duplicates`: the accumulating loop of the
source, which appends each line not already kept. -/
def removeDuplicates (commits : List String) : List String :=
  commits.foldl (fun acc c => if c ∈ acc then acc else acc ++ [c]) []

/-- `ChangelogSection.__str__`. -/
def sectionStr (title : String) (commits : List String) : String :=
  "### " ++ title ++ "\n\n" ++ String.join (commits.map (· ++ "\n"))

/-- `specKeepFirst` is the canonical "keep the first occurrence of each
distinct value, preserving relative order" function, written from the
spec's words to compare `removeDuplicates` against. -/
def specKeepFirst : List String → List String
  | [] => []
  | a :: l => a :: specKeepFirst (l.filter (· ≠ a))
termination_by l => l.length
decreasing_by
  simp only [List.length_cons]
  exact Nat.lt_succ_of_le (List.length_filter_le _ _)

/-! ### `ChangelogRelease.catalog_commit` -/

/-- Check whether `pat` is an initial segment of `l`. -/
def startsWithSeq : List Char → List Char → Bool
  | [], _ => true
  | _ :: _, [] => false
  | p :: ps, c :: cs => p == c && startsWithSeq ps cs

/-- Worker for Python `str.replace(pat, "")`: scans left to right, deleting
each non-overlapping occurrence of `pat` and resuming after it.  The fuel is
the length of the scanned list, which strictly drops at every step. -/
def removeAllFuel (pat : List Char) : Nat → List Char → List Char
  | 0, l => l
  | _ + 1, [] => []
  | fuel + 1, c :: rest =>
    if startsWithSeq pat (c :: rest) then
      removeAllFuel pat fuel ((c :: rest).drop pat.length)
    else
      c :: removeAllFuel pat fuel rest

/-- Python `s.replace(pat, "")` (for the classifier the replacement is
always the empty string). -/
def pyReplaceDel (s pat : String) : String :=
  if pat.data.isEmpty then s else ⟨removeAllFuel pat.data s.data.length s.data⟩

/-- The verb lexicon of `catalog_commit`, in source order. -/
def commitTypes : List (String × String) :=
  [("fixed", "Fixed"), ("fixes", "Fixed"), ("fix", "Fixed"),
   ("bugfix", "Fixed"), ("solve", "Fixed"), ("solves", "Fixed"),
   ("solved", "Fixed"), ("close", "Fixed"), ("closes", "Fixed"),
   ("closed", "Fixed"), ("corrects", "Fixed"), ("correct", "Fixed"),
   ("corrected", "Fixed"),
   ("create", "Added"), ("creates", "Added"), ("created", "Added"),
   ("make", "Added"), ("makes", "Added"), ("made", "Added"),
   ("write", "Added"), ("wrote", "Added"), ("add", "Added"),
   ("adds", "Added"), ("added", "Added"),
   ("list", "Changed"), ("lists", "Changed"), ("use", "Changed"),
   ("uses", "Changed"), ("fetch", "Changed"), ("fetches", "Changed"),
   ("fetched", "Changed"), ("log", "Changed"), ("logs", "Changed"),
   ("logged", "Changed"), ("improve", "Changed"), ("improves", "Changed"),
   ("improved", "Changed"), ("print", "Changed"), ("prints", "Changed"),
   ("printed", "Changed"), ("rewrite", "Changed"), ("rewrote", "Changed"),
   ("rewrit", "Changed"), ("refactor", "Changed"), ("change", "Changed"),
   ("changes", "Changed"), ("changed", "Changed"), ("move", "Changed"),
   ("moves", "Changed"), ("moved", "Changed"), ("update", "Changed"),
   ("updates", "Changed"), ("updated", "Changed"), ("tweak", "Changed"),
   ("tweaks", "Changed"), ("tweaked", "Changed"),
   ("remove", "Removed"), ("removes", "Removed"), ("removed", "Removed"),
   ("delete", "Removed"), ("deletes", "Removed"), ("deleted", "Removed"),
   ("deprecate", "Deprecated"), ("deprecates", "Deprecated"),
   ("deprecated", "Deprecated")]

/-- `ChangelogRelease.catalog_commit`: look up the first word of the
lower-cased title; on a hit, delete every occurrence of that word from the
lower-cased title (Python `str.replace`), strip, capitalize; on a miss
return the original title untouched. -/
def catalogCommit (commit : String) : Option String × String :=
  let commitLower := pyLower commit
  let startWord := firstWord commitLower
  match commitTypes.lookup startWord with
  | some commitType =>
    (some commitType, pyCapitalize (pyStrip (pyReplaceDel commitLower startWord)))
  | none => (none, commit)

/-! ### Stored-line invariant of `ChangelogSection` -/

/-- The (amended) per-line invariant of a stored section line: it carries no
trailing whitespace and is either a full bullet (marker followed by a
whitespace character) or collapses to a bare marker. -/
def lineInv (s : String) : Prop :=
  pyRStrip s = s ∧
    (isBullet s = true ∨ stripL s.data = ['*'] ∨ stripL s.data = ['-'])

/-- The section states reachable by any sequence of `add_commit` and
`remove_duplicates` calls from a freshly constructed section. -/
inductive SectionReach : List String → Prop
  | init : SectionReach []
  | add (l : List String) (t : String) :
      SectionReach l → SectionReach (addCommit l t)
  | dedup (l : List String) :
      SectionReach l → SectionReach (removeDuplicates l)

/-! ### `ChangelogRelease`: state, batching, classification protocol -/

/-- The observable side effects of the changelog engine on its
collaborators: reading or overwriting the changelog file, querying the git
history, and posting a batch to the classification gateway. -/
inductive Effect where
  | fileRead : Effect
  | fileWrite (content : String) : Effect
  | gitCommits (sinceDate untilDate : String) : Effect
  | gatewayPost (payload : List (Option String × String)) (version : String) : Effect
deriving DecidableEq

/-- The remote classification gateway: receives the pending batch and the
release version, returns the refined batch, or `none` on connection
failure / non-200 response / missing credential. -/
def Gateway : Type :=
  List (Option String × String) → String → Option (List (Option String × String))

/-- One commit record, as consumed by `ChangelogRelease.generate` (only the
title field is read). -/
structure Commit where
  title : String
deriving DecidableEq

/-- `ChangelogRelease` state: version, date, the five category sections in
construction order, and the pending batch.  `isUnrel` records whether the
object is a `ChangelogUnreleased` instance (whose `header` has no date
suffix); it defaults to the plain class. -/
structure Release where
  version : String
  date : String
  sections : List (String × List String)
  batched : List (Option String × String)
  isUnrel : Bool := false
deriving DecidableEq

/-- The five sections created in `ChangelogRelease.__init__`, in order. -/
def initSections : List (String × List String) :=
  [("Added", []), ("Changed", []), ("Fixed", []), ("Removed", []),
   ("Deprecated", [])]

def Release.init (version date : String) : Release :=
  ⟨version, date, initSections, [], false⟩

/-- `ChangelogUnreleased()`: fixed version and far-future window end. -/
def unreleasedInit : Release :=
  ⟨"Unreleased", "2099-01-01", initSections, [], true⟩

/-- `self._sections[key].add_commit(line)`: update the section stored under
`key`.  (In Python an unknown key raises `KeyError`; every key the program
uses is one of the five section titles, for which this map is exact.) -/
def sectionsAdd (secs : List (String × List String)) (key line : String) :
    List (String × List String) :=
  secs.map fun p => if p.1 = key then (p.1, addCommit p.2 line) else p

/-- `ChangelogRelease._update_log`: add every pair with a truthy category
to the matching section; pairs with a null (or empty) category are added
nowhere. -/
def updateLog (secs : List (String × List String))
    (logUpdates : List (Option String × String)) :
    List (String × List String) :=
  logUpdates.foldl
    (fun secs p =>
      match p.1 with
      | some c => if c ≠ "" then sectionsAdd secs c p.2 else secs
      | none => secs)
    secs

/-- `ChangelogRelease.post_classification`: if the batch is non-empty, call
the gateway; a truthy (non-null, non-empty) result replaces the batch,
anything else falls back to the original batch; merge, then clear the
batch. -/
def postClassification (gw : Gateway) (r : Release) : Release × List Effect :=
  if r.batched.length > 0 then
    let updates :=
      match gw r.batched r.version with
      | some cs => if cs.length > 0 then cs else r.batched
      | none => r.batched
    ({ r with sections := updateLog r.sections updates, batched := [] },
     [Effect.gatewayPost r.batched r.version])
  else (r, [])

/-- `ChangelogRelease.track_commit`: append to the batch; flush through
`post_classification` once the batch reaches 25 entries. -/
def trackCommit (gw : Gateway) (r : Release)
    (commitType : Option String) (commitUpdate : String) :
    Release × List Effect :=
  let r1 := { r with batched := r.batched ++ [(commitType, commitUpdate)] }
  if r1.batched.length ≥ 25 then postClassification gw r1 else (r1, [])

/-- `ChangelogRelease.generate`: fetch the commits of the window, classify
and track each one with a non-empty title, flush the remaining batch, then
deduplicate every section. -/
def releaseGenerate (gw : Gateway) (getCommits : String → String → List Commit)
    (r : Release) (startDate : String) : Release × List Effect :=
  let commits := getCommits startDate r.date
  let folded := commits.foldl
    (fun (acc : Release × List Effect) (com : Commit) =>
      if com.title ≠ "" then
        let catalogued := catalogCommit com.title
        let step := trackCommit gw acc.1 catalogued.1 catalogued.2
        (step.1, acc.2 ++ step.2)
      else acc)
    (r, [Effect.gitCommits startDate r.date])
  let flushed := postClassification gw folded.1
  let deduped := { flushed.1 with
    sections := flushed.1.sections.map fun p => (p.1, removeDuplicates p.2) }
  (deduped, folded.2 ++ flushed.2)

/-! ### `ChangelogRelease.read` and `ChangelogRelease.__str__` -/

/-- Lower-cased category names recognized by `ChangelogRelease.read`. -/
def categoryNames : List String :=
  ["added", "changed", "fixed", "removed", "deprecated"]

/-- Inner scan of `ChangelogRelease.read`: starting right after a category
heading, append every bullet line to the open section until any heading
closes it. -/
def readSectionScan (secs : List (String × List String)) (title : String) :
    List String → List (String × List String)
  | [] => secs
  | l :: rest =>
    if isBullet l then readSectionScan (sectionsAdd secs title l) title rest
    else if isHeading l then secs
    else readSectionScan secs title rest

/-- Outer loop of `ChangelogRelease.read`: every line whose
`lstrip("#").strip()` lower-cases to a category name opens that section
(titled by `str.capitalize`) and scans the following lines. -/
def releaseReadAux (secs : List (String × List String)) :
    List String → List (String × List String)
  | [] => secs
  | line :: rest =>
    let l := pyStrip (pyLStripHash line)
    let secs' :=
      if pyLower l ∈ categoryNames then readSectionScan secs (pyCapitalize l) rest
      else secs
    releaseReadAux secs' rest

/-- `ChangelogRelease.read`. -/
def Release.read (r : Release) (lines : List String) : Release :=
  { r with sections := releaseReadAux r.sections lines }

/-- `ChangelogRelease.header` (overridden by `ChangelogUnreleased` to drop
the date suffix). -/
def releaseHeader (r : Release) : String :=
  if r.isUnrel then "## " ++ r.version else "## " ++ r.version ++ " - " ++ r.date

/-- `ChangelogRelease.__str__`: the header, a blank line, then every
non-empty section stripped of surrounding whitespace and followed by a
blank line. -/
def releaseStr (r : Release) : String :=
  r.sections.foldl
    (fun content p =>
      if hasContent p.2 then content ++ (pyStrip (sectionStr p.1 p.2) ++ "\n\n")
      else content)
    (releaseHeader r ++ "\n\n")

/-- Split a string at every `'\n'` (the lines of a rendered document). -/
def splitLinesAux : List Char → List Char → List String
  | [], cur => [⟨cur.reverse⟩]
  | c :: rest, cur =>
    if c = '\n' then ⟨cur.reverse⟩ :: splitLinesAux rest []
    else splitLinesAux rest (c :: cur)

def splitLines (s : String) : List String := splitLinesAux s.data []

/-- Interleave lines with `'\n'` (inverse of `splitLines` on
newline-free lines); used to state the round-trip argument. -/
def joinLines : List String → String
  | [] => ""
  | [l] => l
  | l :: rest => l ++ ("\n" ++ joinLines rest)

/-- The contribution of one section to `ChangelogRelease.__str__`. -/
def gString (p : String × List String) : String :=
  if hasContent p.2 then pyStrip (sectionStr p.1 p.2) ++ "\n\n" else ""

/-- The lines contributed by one section to the rendered release. -/
def secLines (p : String × List String) : List String :=
  if hasContent p.2 then ("### " ++ p.1) :: "" :: (p.2 ++ [""]) else []

/-- The lines contributed by a list of sections. -/
def linesBlocks (secs : List (String × List String)) : List String :=
  (secs.map secLines).flatten

/-- Sequentially add lines to the section stored under `key`. -/
def addLines (secs : List (String × List String)) (key : String)
    (ls : List String) : List (String × List String) :=
  ls.foldl (fun s l => sectionsAdd s key l) secs

/-- The five section titles, in construction order. -/
def sectionKeys : List String :=
  ["Added", "Changed", "Fixed", "Removed", "Deprecated"]

/-- A stored section line in good standing: a bullet, already
right-stripped, with no embedded newline. -/
@[reducible]
def goodLine (s : String) : Prop :=
  isBullet s = true ∧ pyRStrip s = s ∧ '\n' ∉ s.data

/-- A gateway that always reports failure (used as a concrete witness
input). -/
def gwNone : Gateway := fun _ _ => none

/-- Concrete release state used by the C5 witness. -/
def relC5 : Release :=
  { version := "0.1.0", date := "2021-01-01", sections := initSections,
    batched := [(none, "x"), (some "Fixed", "* y")] }

/-- A release populated through the real pipeline from the single commit
`"Fix"`: the classifier yields `(Fixed, "")` and `add_commit` stores the
bare line `"*"` (used as the C3 counterexample). -/
def relC3 : Release :=
  (releaseGenerate gwNone (fun _ _ => [⟨"Fix"⟩])
    (Release.init "1.0.0" "2021-01-01") "2020-01-01").1

/-! ### `ChangelogDoc` -/

/-- External collaborators of the document: the changelog file content
(`none` when the file does not exist), the git history query, and the
classification gateway. -/
structure Env where
  fileLines : Option (List String)
  commits : String → String → List Commit
  gateway : Gateway

/-- The changelog document state: the releases dict (insertion-ordered,
keyed by version string), the tag list (newest first), and the cached
`has_git` probe. -/
structure Doc where
  releases : List (String × Release)
  tags : List (String × String)
  hasGit : Bool
deriving DecidableEq

/-- Python dict assignment `d[k] = v`: replace in place when the key
exists, append otherwise. -/
def upsert (m : List (String × Release)) (k : String) (v : Release) :
    List (String × Release) :=
  if m.any (fun p => p.1 == k) then
    m.map (fun p => if p.1 = k then (k, v) else p)
  else m ++ [(k, v)]

/-- Python dict membership `k in d`. -/
def containsKey (m : List (String × Release)) (k : String) : Bool :=
  m.any (fun p => p.1 == k)

/-- `ChangelogDoc._get_tag_date`: the first matching tag's date, `None`
when no tag matches. -/
def getTagDate (tags : List (String × String)) (tagName : String) :
    Option String :=
  List.lookup tagName tags

/-- Python `str(x)` applied to an `Optional[str]`. -/
def optStr : Option String → String
  | some s => s
  | none => "None"

/-- One `[0-9]{1,2}` regex group followed by a literal dot (prefix
matching, as `re.match` does). -/
def digits12Dot (l : List Char) : Option (List Char) :=
  let ds := l.takeWhile Char.isDigit
  let rest := l.dropWhile Char.isDigit
  if 1 ≤ ds.length ∧ ds.length ≤ 2 then
    match rest with
    | '.' :: r => some r
    | _ => none
  else none

/-- `re.match(r"[0-9]{1,2}\.[0-9]{1,2}\.[0-9]{1,2}", s)` as a Boolean. -/
def verMatch (l : List Char) : Bool :=
  match digits12Dot l with
  | some r1 =>
    match digits12Dot r1 with
    | some r2 =>
      match r2 with
      | c :: _ => c.isDigit
      | [] => false
    | none => false
  | none => false

/-- Python `str.split(sep)` for a one-character separator. -/
def splitOnCharAux (sep : Char) : List Char → List Char → List String
  | [], cur => [⟨cur.reverse⟩]
  | c :: rest, cur =>
    if c = sep then ⟨cur.reverse⟩ :: splitOnCharAux sep rest []
    else splitOnCharAux sep rest (c :: cur)

def splitOnChar (sep : Char) (s : String) : List String :=
  splitOnCharAux sep s.data []

/-- Accumulator state of the `ChangelogDoc.read` line loop.  In the source
`version_date` starts as `None` and is written on every version heading; it
is only ever read after a heading set it, so the initial value is
irrelevant. -/
structure ReadState where
  currVersion : Option String
  versionDate : String
  currLines : List String
  releases : List (String × Release)
deriving DecidableEq

/-- `_read_release` inside `ChangelogDoc.read`: flush the accumulated
lines into a release keyed by the current version (a `ChangelogUnreleased`
when the version reads "unreleased", ignoring the parsed date). -/
def readRelease (st : ReadState) : List (String × Release) :=
  match st.currVersion with
  | none => st.releases
  | some v =>
    let newRelease :=
      if pyLower v == "unreleased" then unreleasedInit
      else Release.init v st.versionDate
    upsert st.releases v (Release.read newRelease st.currLines)

/-- The line loop of `ChangelogDoc.read`: a line whose de-hashed, stripped,
de-`v`-prefixed first `-`-part matches the version pattern (or reads
"unreleased") flushes the previous release and opens a new one; the
explicit date is taken only when splitting on `'-'` gives exactly two
parts, otherwise the date is looked up from the tags (stringified, so a
missing tag yields "None"); every other line accumulates. -/
def docReadLoop (tags : List (String × String)) :
    List String → ReadState → ReadState
  | [], st => st
  | line :: rest, st =>
    let l := pyStrip (pyLStripHash line)
    let parts := splitOnChar '-' l
    let ver := pyLStripV (pyStrip (parts.headD ""))
    if verMatch ver.data || pyLower ver == "unreleased" then
      docReadLoop tags rest
        { currVersion := some ver,
          versionDate :=
            if parts.length == 2 then pyStrip (parts.getD 1 "")
            else optStr (getTagDate tags ("v" ++ ver)),
          currLines := [],
          releases := readRelease st }
    else
      docReadLoop tags rest { st with currLines := st.currLines ++ [line] }

/-- `ChangelogDoc.read`: no-op when the file does not exist; otherwise run
the line loop over the file's lines and flush the final accumulator.  (The
source keeps the trailing newline of each line read from the file; every
consumer strips it, so lines are modelled newline-free.) -/
def docRead (fileLines : Option (List String)) (tags : List (String × String))
    (releases : List (String × Release)) : List (String × Release) :=
  match fileLines with
  | none => releases
  | some content =>
    readRelease (docReadLoop tags content
      { currVersion := none, versionDate := "None", currLines := [],
        releases := releases })

/-- `tag_name.lstrip("v").strip()`. -/
def vless (tagName : String) : String := pyStrip (pyLStripV tagName)

/-- The window start used for the tag at the head of a walk whose remaining
older tags are `rest`: the next-older tag's date, or the sentinel for the
oldest tag. -/
def windowStart : List (String × String) → String
  | [] => "1999-01-01"
  | (_, d) :: _ => d

/-- The tag walk at the end of `ChangelogDoc.generate`: tags already
present as releases are skipped, absent ones are generated with the
next-older tag's date (sentinel for the oldest) as window start. -/
def tagWalk (env : Env) : List (String × String) → List (String × Release) →
    List (String × Release) × List Effect
  | [], releases => (releases, [])
  | (tagName, tagDate) :: rest, releases =>
    if containsKey releases (vless tagName) then tagWalk env rest releases
    else
      let generated := releaseGenerate env.gateway env.commits
        (Release.init (vless tagName) tagDate) (windowStart rest)
      let next := tagWalk env rest (upsert releases (vless tagName) generated.1)
      (next.1, generated.2 ++ next.2)

/-- `ChangelogDoc.generate`: nothing at all happens without git; otherwise
read the existing file, ensure a (possibly fresh) Unreleased release,
generate it from the newest tag's date (or the sentinel), then walk the
tags. -/
def docGenerate (env : Env) (doc : Doc) : Doc × List Effect :=
  if !doc.hasGit then (doc, [])
  else
    let readEffects : List Effect :=
      match env.fileLines with
      | some _ => [Effect.fileRead]
      | none => []
    let releases1 := docRead env.fileLines doc.tags doc.releases
    let releases2 :=
      if !containsKey releases1 "Unreleased" ||
          (!doc.tags.isEmpty &&
            !containsKey releases1 (pyLStripV (doc.tags.headD ("", "")).1))
      then upsert releases1 "Unreleased" unreleasedInit
      else releases1
    let unreleasedStart :=
      match doc.tags with
      | [] => "1999-01-01"
      | (_, d) :: _ => d
    let genUnrel := releaseGenerate env.gateway env.commits
      ((List.lookup "Unreleased" releases2).getD unreleasedInit) unreleasedStart
    let releases3 := upsert releases2 "Unreleased" genUnrel.1
    let walked := tagWalk env doc.tags releases3
    ({ doc with releases := walked.1 }, readEffects ++ genUnrel.2 ++ walked.2)

/-- `ChangelogDoc.__str__`. -/
def docStr (doc : Doc) : String :=
  let base :=
    "# Changelog\n\nBased on KeepAChangelog.\nGenerated by **Documatic.**\n\n"
  let withUnrel :=
    match List.lookup "Unreleased" doc.releases with
    | some rel => base ++ pyStrip (releaseStr rel)
    | none => base
  let withTags := doc.tags.foldl
    (fun content p =>
      match List.lookup (vless p.1) doc.releases with
      | some rel => content ++ ("\n\n" ++ pyStrip (releaseStr rel))
      | none => content)
    withUnrel
  withTags ++ "\n"

/-- `ChangelogDoc.save`: overwrite the file with the rendering, only when
git is available. -/
def docSave (doc : Doc) : List Effect :=
  if doc.hasGit then [Effect.fileWrite (docStr doc)] else []

/-- The tag-walk effects as the claim states them: walking the tags in
order (newest first), a tag whose de-`v`-prefixed name is already a key of
the releases map contributes nothing, and every absent tag contributes
exactly the effects of generating its release with window start equal to
the next-older tag's date (or the sentinel for the oldest).  Membership is
checked against the releases map the walk started from. -/
def specTagEffects (env : Env) (releases : List (String × Release)) :
    List (String × String) → List Effect
  | [] => []
  | (tagName, tagDate) :: rest =>
    (if containsKey releases (vless tagName) then []
     else (releaseGenerate env.gateway env.commits
        (Release.init (vless tagName) tagDate)
        (windowStart rest)).2)
      ++ specTagEffects env releases rest

/-! ### SHA-224 (the project-name digest sent by `requests.post`)

Implemented over `Nat` with explicit truncation `% 2 ^ 32`, following
FIPS 180-4 (SHA-256 with the SHA-224 initial hash value, truncated to
seven words). -/

/-- Truncate to 32 bits. -/
def w32 (n : Nat) : Nat := n % 4294967296

/-- Rotate a 32-bit word right by `k`. -/
def rotr32 (n k : Nat) : Nat := w32 ((n >>> k) ||| (n <<< (32 - k)))

def smallSigma0 (x : Nat) : Nat := (rotr32 x 7) ^^^ (rotr32 x 18) ^^^ (x >>> 3)

def smallSigma1 (x : Nat) : Nat := (rotr32 x 17) ^^^ (rotr32 x 19) ^^^ (x >>> 10)

def bigSigma0 (x : Nat) : Nat := (rotr32 x 2) ^^^ (rotr32 x 13) ^^^ (rotr32 x 22)

def bigSigma1 (x : Nat) : Nat := (rotr32 x 6) ^^^ (rotr32 x 11) ^^^ (rotr32 x 25)

/-- The 64 SHA-256 round constants of FIPS 180-4 (decimal). -/
def shaK : List Nat :=
  [1116352408, 1899447441, 3049323471, 3921009573, 961987163,
   1508970993, 2453635748, 2870763221, 3624381080, 310598401,
   607225278, 1426881987, 1925078388, 2162078206, 2614888103,
   3248222580, 3835390401, 4022224774, 264347078, 604807628,
   770255983, 1249150122, 1555081692, 1996064986, 2554220882,
   2821834349, 2952996808, 3210313671, 3336571891, 3584528711,
   113926993, 338241895, 666307205, 773529912, 1294757372,
   1396182291, 1695183700, 1986661051, 2177026350, 2456956037,
   2730485921, 2820302411, 3259730800, 3345764771, 3516065817,
   3600352804, 4094571909, 275423344, 430227734, 506948616,
   659060556, 883997877, 958139571, 1322822218, 1537002063,
   1747873779, 1955562222, 2024104815, 2227730452, 2361852424,
   2428436474, 2756734187, 3204031479, 3329325298]

/-- The SHA-224 initial hash value of FIPS 180-4 (decimal). -/
def shaH224 : List Nat :=
  [3238371032, 914150663, 812702999, 4144912697, 4290775857,
   1750603025, 1694076839, 3204075428]

/-- UTF-8 bytes of one code point (Python `str.encode("utf-8")`). -/
def utf8Bytes (c : Char) : List Nat :=
  let n := c.toNat
  if n < 0x80 then [n]
  else if n < 0x800 then
    [0xc0 ||| (n >>> 6), 0x80 ||| (n &&& 0x3f)]
  else if n < 0x10000 then
    [0xe0 ||| (n >>> 12), 0x80 ||| ((n >>> 6) &&& 0x3f), 0x80 ||| (n &&& 0x3f)]
  else
    [0xf0 ||| (n >>> 18), 0x80 ||| ((n >>> 12) &&& 0x3f),
     0x80 ||| ((n >>> 6) &&& 0x3f), 0x80 ||| (n &&& 0x3f)]

def utf8Encode (s : String) : List Nat := (s.data.map utf8Bytes).flatten

/-- FIPS padding: `0x80`, zeros to 56 mod 64, then the 64-bit big-endian
bit length. -/
def shaPad (msg : List Nat) : List Nat :=
  let bitLen := msg.length * 8
  let zeros := (120 - ((msg.length + 1) % 64)) % 64
  msg ++ [0x80] ++ List.replicate zeros 0 ++
    [(bitLen >>> 56) % 256, (bitLen >>> 48) % 256, (bitLen >>> 40) % 256,
     (bitLen >>> 32) % 256, (bitLen >>> 24) % 256, (bitLen >>> 16) % 256,
     (bitLen >>> 8) % 256, bitLen % 256]

/-- Big-endian bytes to 32-bit words. -/
def bytesToWords : List Nat → List Nat
  | b0 :: b1 :: b2 :: b3 :: rest =>
    ((((b0 <<< 8) ||| b1) <<< 8 ||| b2) <<< 8 ||| b3) :: bytesToWords rest
  | _ => []

/-- Append the next word of the message schedule. -/
def scheduleStep (ws : List Nat) : List Nat :=
  let i := ws.length
  ws ++ [w32 (ws.getD (i - 16) 0 + smallSigma0 (ws.getD (i - 15) 0) +
    ws.getD (i - 7) 0 + smallSigma1 (ws.getD (i - 2) 0))]

def schedule : Nat → List Nat → List Nat
  | 0, ws => ws
  | n + 1, ws => schedule n (scheduleStep ws)

/-- One SHA-256 round on the working variables. -/
def roundStep (wlist : List Nat) (st : List Nat) (i : Nat) : List Nat :=
  match st with
  | [a, b, c, d, e, f, g, h] =>
    let temp1 := w32 (h + bigSigma1 e +
      ((e &&& f) ^^^ ((e ^^^ 4294967295) &&& g)) +
      shaK.getD i 0 + wlist.getD i 0)
    let temp2 := w32 (bigSigma0 a + ((a &&& b) ^^^ (a &&& c) ^^^ (b &&& c)))
    [w32 (temp1 + temp2), a, b, c, w32 (d + temp1), e, f, g]
  | other => other

/-- Compress one 16-word block into the hash state. -/
def shaCompress (block16 : List Nat) (h : List Nat) : List Nat :=
  let ws := schedule 48 block16
  let final := (List.range 64).foldl (roundStep ws) h
  match h, final with
  | [h0, h1, h2, h3, h4, h5, h6, h7], [a, b, c, d, e, f, g, hh] =>
    [w32 (h0 + a), w32 (h1 + b), w32 (h2 + c), w32 (h3 + d),
     w32 (h4 + e), w32 (h5 + f), w32 (h6 + g), w32 (h7 + hh)]
  | _, _ => h

/-- Process the padded message 64 bytes at a time (the fuel is the block
count). -/
def shaBlocks : Nat → List Nat → List Nat → List Nat
  | 0, _, h => h
  | fuel + 1, bytes, h =>
    shaBlocks fuel (bytes.drop 64) (shaCompress (bytesToWords (bytes.take 64)) h)

def hexDigit (n : Nat) : Char :=
  if n < 10 then Char.ofNat (48 + n) else Char.ofNat (87 + n)

def wordHex (n : Nat) : List Char :=
  [hexDigit ((n >>> 28) % 16), hexDigit ((n >>> 24) % 16),
   hexDigit ((n >>> 20) % 16), hexDigit ((n >>> 16) % 16),
   hexDigit ((n >>> 12) % 16), hexDigit ((n >>> 8) % 16),
   hexDigit ((n >>> 4) % 16), hexDigit (n % 16)]

/-- `hashlib.sha224(s.encode("utf-8")).hexdigest()`. -/
def sha224hex (s : String) : String :=
  let padded := shaPad (utf8Encode s)
  let final := shaBlocks (padded.length / 64) padded shaH224
  ⟨((final.take 7).map wordHex).flatten⟩

/-! ### `requests.post` (request assembly) -/

/-- The environment variables read by `requests.post`. -/
structure GatewayConfig where
  doculogProjectName : Option String
  documaticApiKey : Option String
  doculogApiKey : Option String
  doculogRunLocally : Option String
deriving DecidableEq

/-- An HTTP POST request as assembled by `requests.post`. -/
structure Request where
  url : String
  params : List (String × String)
  body : String
  headers : List (String × String)
deriving DecidableEq

def serverDomain : String :=
  "https://av9kmkrq4f.execute-api.eu-west-2.amazonaws.com/Prod/"

/-- `project_name if project_name else "DefaultProject"` (Python
truthiness: unset and empty both fall back). -/
def effectiveProjectName (cfg : GatewayConfig) : String :=
  match cfg.doculogProjectName with
  | some s => if s ≠ "" then s else "DefaultProject"
  | none => "DefaultProject"

/-- `os.getenv("DOCUMATIC_API_KEY") or os.getenv("DOCULOG_API_KEY")`,
with falsy values collapsed to `none` (matching the `if not api_key`
guard). -/
def effectiveApiKey (cfg : GatewayConfig) : Option String :=
  match cfg.documaticApiKey with
  | some s =>
    if s ≠ "" then some s
    else
      match cfg.doculogApiKey with
      | some s2 => if s2 ≠ "" then some s2 else none
      | none => none
  | none =>
    match cfg.doculogApiKey with
    | some s2 => if s2 ≠ "" then some s2 else none
    | none => none

/-- Python `dict.update`: overwrite existing keys, append new ones. -/
def paramsUpdate (base extra : List (String × String)) :
    List (String × String) :=
  extra.foldl
    (fun acc p =>
      if acc.any (fun q => q.1 == p.1) then
        acc.map (fun q => if q.1 = p.1 then p else q)
      else acc ++ [p])
    base

/-- `requests.post` up to the network send: `none` when no credential is
configured (no call is made at all), otherwise the assembled request with
the hashed project correlator, the caller's params, the JSON body and the
credential header. -/
def buildPost (cfg : GatewayConfig) (endpoint : String) (payload : String)
    (params : List (String × String)) : Option Request :=
  let hashedProject := sha224hex (effectiveProjectName cfg)
  match effectiveApiKey cfg with
  | none => none
  | some apiKey =>
    let domain :=
      if cfg.doculogRunLocally == some "True" then "http://127.0.0.1:3000/"
      else serverDomain
    some { url := domain ++ endpoint,
           params := paramsUpdate [("project", hashedProject)] params,
           body := payload,
           headers := [("x-api-key", apiKey),
                       ("content-type", "application/json")] }

/-- Concrete gateway configuration used by the C9 witness. -/
def cfgW : GatewayConfig :=
  { doculogProjectName := none, documaticApiKey := some "k",
    doculogApiKey := none, doculogRunLocally := none }

/-- The request `buildPost` assembles for `cfgW`. -/
def reqW : Request :=
  { url := serverDomain ++ "classify",
    params := [("project", sha224hex "DefaultProject"), ("version", "0.1.0")],
    body := "[]",
    headers := [("x-api-key", "k"), ("content-type", "application/json")] }

/-- Concrete environment used by witnesses: a one-line changelog file, one
commit in every window, and an unreachable gateway. -/
def envW : Env :=
  { fileLines := some ["## 1.0.0 - 2021-01-01"],
    commits := fun _ _ => [⟨"Add a feature"⟩],
    gateway := gwNone }

/-- Concrete git-less document used by the C4 witness. -/
def docC4 : Doc :=
  { releases := [], tags := [("v1.0.0", "2021-01-01")], hasGit := false }

/-- Concrete tag list used by the C8 witness: two tags, newest first. -/
def tagsC8 : List (String × String) :=
  [("v2.0.0", "2021-06-01"), ("v1.0.0", "2021-01-01")]

/-- Concrete releases map used by the C8 witness: `2.0.0` already present,
`1.0.0` absent. -/
def relsC8 : List (String × Release) :=
  [("2.0.0", Release.init "2.0.0" "2021-06-01")]

/-! ## Theorems

### First-occurrence deduplication (helper lemmas, then claim C6) -/

theorem specKeepFirst_nil : specKeepFirst [] = [] := by
  simp [specKeepFirst]

theorem specKeepFirst_cons (a : String) (l : List String) :
    specKeepFirst (a :: l) = a :: specKeepFirst (l.filter (· ≠ a)) := by
  simp [specKeepFirst]

theorem removeDuplicates_foldl_eq (l : List String) :
    ∀ acc : List String,
      l.foldl (fun acc c => if c ∈ acc then acc else acc ++ [c]) acc =
        acc ++ specKeepFirst (l.filter (fun x => decide (x ∉ acc))) := by
  induction l with
  | nil => intro acc; simp [specKeepFirst_nil]
  | cons a l ih =>
    intro acc
    by_cases h : a ∈ acc
    · simp only [List.foldl_cons, if_pos h, List.filter_cons]
      have hd : decide (a ∉ acc) = false := by simp [h]
      rw [hd]
      exact ih acc
    · simp only [List.foldl_cons, if_neg h, List.filter_cons]
      have hd : decide (a ∉ acc) = true := by simp [h]
      rw [hd, ih (acc ++ [a]), if_pos rfl]
      have hfilter :
          l.filter (fun x => decide (x ∉ acc ++ [a])) =
            (l.filter (fun x => decide (x ∉ acc))).filter (· ≠ a) := by
        rw [List.filter_filter]
        apply List.filter_congr
        intro x _
        by_cases hxa : x = a
        · subst hxa; simp
        · by_cases hxacc : x ∈ acc <;> simp [hxa, hxacc]
      rw [specKeepFirst_cons, hfilter, List.append_assoc]
      rfl

theorem removeDuplicates_eq_specKeepFirst (l : List String) :
    removeDuplicates l = specKeepFirst l := by
  have h := removeDuplicates_foldl_eq l []
  simpa [removeDuplicates, List.filter_true] using h

theorem mem_specKeepFirst {x : String} : ∀ {l : List String},
    x ∈ specKeepFirst l → x ∈ l
  | [], h => by simp [specKeepFirst_nil] at h
  | a :: l, h => by
    rw [specKeepFirst_cons] at h
    rcases List.mem_cons.mp h with h | h
    · exact h ▸ List.mem_cons_self a l
    · exact List.mem_cons_of_mem a (List.mem_of_mem_filter (mem_specKeepFirst h))
termination_by l => l.length
decreasing_by
  simp only [List.length_cons]
  exact Nat.lt_succ_of_le (List.length_filter_le _ _)

theorem specKeepFirst_nodup : ∀ l : List String, (specKeepFirst l).Nodup
  | [] => by simp [specKeepFirst_nil]
  | a :: l => by
    rw [specKeepFirst_cons]
    refine List.nodup_cons.mpr ⟨?_, specKeepFirst_nodup (l.filter (· ≠ a))⟩
    intro hmem
    have := List.of_mem_filter (mem_specKeepFirst hmem)
    simp at this
termination_by l => l.length
decreasing_by
  simp only [List.length_cons]
  exact Nat.lt_succ_of_le (List.length_filter_le _ _)

theorem specKeepFirst_of_nodup : ∀ l : List String, l.Nodup → specKeepFirst l = l
  | [], _ => specKeepFirst_nil
  | a :: l, h => by
    rw [specKeepFirst_cons]
    rcases List.nodup_cons.mp h with ⟨ha, hl⟩
    have hfl : l.filter (· ≠ a) = l := by
      apply List.filter_eq_self.mpr
      intro x hx
      simp only [ne_eq, decide_eq_true_eq]
      intro hxa
      exact ha (hxa ▸ hx)
    rw [hfl, specKeepFirst_of_nodup l hl]
termination_by l => l.length

theorem specKeepFirst_sublist : ∀ l : List String, (specKeepFirst l).Sublist l
  | [] => by simp [specKeepFirst_nil]
  | a :: l => by
    rw [specKeepFirst_cons]
    exact List.Sublist.cons₂ a
      ((specKeepFirst_sublist (l.filter (· ≠ a))).trans (List.filter_sublist l))
termination_by l => l.length
decreasing_by
  simp only [List.length_cons]
  exact Nat.lt_succ_of_le (List.length_filter_le _ _)

/-- Claim C6: `Section.removeDuplicates` rewrites the line list keeping only
the first occurrence of each distinct value (it coincides with the canonical
first-occurrence filter `specKeepFirst`), it preserves the relative order of
kept lines (the result is a sublist of the input and is duplicate-free), and
it is idempotent. -/
theorem removeDuplicates_correct (l : List String) :
    removeDuplicates l = specKeepFirst l ∧
      (removeDuplicates l).Sublist l ∧
      (removeDuplicates l).Nodup ∧
      removeDuplicates (removeDuplicates l) = removeDuplicates l := by
  refine ⟨removeDuplicates_eq_specKeepFirst l, ?_, ?_, ?_⟩
  · rw [removeDuplicates_eq_specKeepFirst]
    exact specKeepFirst_sublist l
  · rw [removeDuplicates_eq_specKeepFirst]
    exact specKeepFirst_nodup l
  · rw [removeDuplicates_eq_specKeepFirst l,
      removeDuplicates_eq_specKeepFirst (specKeepFirst l)]
    exact specKeepFirst_of_nodup _ (specKeepFirst_nodup l)

/-! ### The commit classifier (claims C7 and C1) -/

/-- Claim C7: when the first word of the lower-cased title is not a key of
the verb lexicon, `catalog_commit` returns a null category together with
the original title string completely unmodified. -/
theorem catalogCommit_miss (commit : String)
    (h : commitTypes.lookup (firstWord (pyLower commit)) = none) :
    catalogCommit commit = (none, commit) := by
  simp only [catalogCommit, h]

/-- Witness for C7 at the concrete title `"Google a test commit"`. -/
theorem catalogCommit_miss_witness :
    commitTypes.lookup (firstWord (pyLower "Google a test commit")) = none ∧
      catalogCommit "Google a test commit" = (none, "Google a test commit") :=
  ⟨by decide, catalogCommit_miss "Google a test commit" (by decide)⟩

/-- Claim C1 (code evaluated at the failing input): on the title
`"Fix suffix"` the code produces the cleaned text `"Suf"`, because Python
`str.replace` deletes every occurrence of the verb `"fix"` — including the
one inside `"suffix"` — whereas stripping only the leading verb token (the
documented behaviour) would produce `"Suffix"`. -/
theorem catalogCommit_replaces_all_occurrences :
    catalogCommit "Fix suffix" = (some "Fixed", "Suf") ∧
      pyCapitalize (pyStrip ⟨(pyLower "Fix suffix").data.drop
        (firstWord (pyLower "Fix suffix")).data.length⟩) = "Suffix" ∧
      "Suf" ≠ "Suffix" := by
  refine ⟨by decide, by decide, by decide⟩

/-! ### Stored-line invariant (claim C10) -/

theorem dropWhile_self_idem (p : Char → Bool) (l : List Char) :
    (l.dropWhile p).dropWhile p = l.dropWhile p := by
  induction l with
  | nil => rfl
  | cons c l ih =>
    by_cases h : p c
    · simp [List.dropWhile_cons, h, ih]
    · simp [List.dropWhile_cons, h]

theorem rstripL_idem (l : List Char) : rstripL (rstripL l) = rstripL l := by
  simp [rstripL, dropWhile_self_idem]

theorem pyRStrip_idem (s : String) : pyRStrip (pyRStrip s) = pyRStrip s := by
  simp [pyRStrip, rstripL_idem]

theorem rstripL_eq_nil_iff (l : List Char) :
    rstripL l = [] ↔ ∀ c ∈ l, isPySpace c := by
  simp [rstripL, List.dropWhile_eq_nil_iff]

theorem rstripL_append (xs ys : List Char) :
    rstripL (xs ++ ys) =
      if rstripL ys = [] then rstripL xs else xs ++ rstripL ys := by
  by_cases h : rstripL ys = []
  · rw [if_pos h]
    have hy : ys.reverse.dropWhile isPySpace = [] := by
      simpa [rstripL, List.reverse_eq_nil_iff] using h
    simp [rstripL, List.reverse_append, List.dropWhile_append, hy]
  · rw [if_neg h]
    have hy : ¬ ys.reverse.dropWhile isPySpace = [] := by
      intro hc
      exact h (by simp [rstripL, hc])
    simp [rstripL, List.reverse_append, List.dropWhile_append,
      List.isEmpty_iff, hy]

theorem rstripL_cons (c : Char) (l : List Char) :
    rstripL (c :: l) =
      if rstripL l = [] then (if isPySpace c then [] else [c])
      else c :: rstripL l := by
  have h := rstripL_append [c] l
  by_cases hl : rstripL l = []
  · rw [show c :: l = [c] ++ l from rfl, h, if_pos hl, if_pos hl]
    by_cases hc : isPySpace c <;> simp [rstripL, List.dropWhile, hc]
  · rw [show c :: l = [c] ++ l from rfl, h, if_neg hl, if_neg hl]
    rfl

theorem dropWhile_append_of_all (p : Char → Bool) (w z : List Char)
    (hw : ∀ c ∈ w, p c) : (w ++ z).dropWhile p = z.dropWhile p := by
  have hwnil : w.dropWhile p = [] := List.dropWhile_eq_nil_iff.mpr hw
  simp [List.dropWhile_append, hwnil]

theorem lineInv_rstrip_of_bullet (s : String) (h : isBullet s = true) :
    lineInv (pyRStrip s) := by
  have hdecomp : s.data.takeWhile isPySpace ++ s.data.dropWhile isPySpace
      = s.data := List.takeWhile_append_dropWhile isPySpace s.data
  set w := s.data.takeWhile isPySpace with hw
  have hwall : ∀ c ∈ w, isPySpace c := fun c hc => List.mem_takeWhile_imp hc
  rcases hmatch : s.data.dropWhile isPySpace with _ | ⟨m, _ | ⟨d, r⟩⟩
  · simp [isBullet, hmatch] at h
  · simp [isBullet, hmatch] at h
  · have hmd : ((m == '*' || m == '-') && isPySpace d) = true := by
      simpa [isBullet, hmatch] using h
    have hmd' : (m = '*' ∨ m = '-') ∧ isPySpace d = true := by
      simpa [Bool.and_eq_true, Bool.or_eq_true, beq_iff_eq] using hmd
    obtain ⟨hm, hd⟩ := hmd'
    have hmns : ¬ isPySpace m = true := by
      rcases hm with rfl | rfl <;> decide
    have hsdata : s.data = w ++ (m :: d :: r) := by
      rw [hmatch] at hdecomp; exact hdecomp.symm
    have hmdr_ne : rstripL (m :: d :: r) ≠ [] := by
      intro hc
      exact hmns ((rstripL_eq_nil_iff _).mp hc m (by simp))
    have hstored : rstripL s.data = w ++ rstripL (m :: d :: r) := by
      rw [hsdata, rstripL_append, if_neg hmdr_ne]
    refine ⟨pyRStrip_idem s, ?_⟩
    by_cases hdr : rstripL (d :: r) = []
    · -- the bullet's body is all whitespace: a bare marker remains
      have hmm : rstripL (m :: d :: r) = [m] := by
        rw [rstripL_cons, if_pos hdr, if_neg hmns]
      right
      have hstrip : stripL (pyRStrip s).data = [m] := by
        show stripL (rstripL s.data) = [m]
        rw [hstored, hmm, stripL, lstripL,
          dropWhile_append_of_all _ w [m] hwall]
        have hone : List.dropWhile isPySpace [m] = [m] := by
          simp [List.dropWhile, hmns]
        rw [hone, rstripL_cons]
        have hnil : rstripL ([] : List Char) = [] := rfl
        rw [if_pos hnil, if_neg hmns]
      rcases hm with rfl | rfl
      · exact Or.inl hstrip
      · exact Or.inr hstrip
    · -- body survives the right strip: still a full bullet
      left
      have hdr' : rstripL (d :: r) = d :: rstripL r := by
        rw [rstripL_cons] at hdr ⊢
        by_cases hr : rstripL r = []
        · rw [if_pos hr, if_pos hd] at hdr; exact absurd rfl hdr
        · rw [if_neg hr]
      have hmm : rstripL (m :: d :: r) = m :: d :: rstripL r := by
        rw [rstripL_cons, if_neg hdr, hdr']
      show isBullet (String.mk (rstripL s.data)) = true
      rw [hstored, hmm]
      have hdrop : (w ++ m :: d :: rstripL r).dropWhile isPySpace
          = m :: d :: rstripL r := by
        rw [dropWhile_append_of_all _ w _ hwall]
        simp [List.dropWhile, hmns]
      simp only [isBullet, hdrop]
      rcases hm with rfl | rfl <;> simp [hd]

theorem lineInv_rstrip_star (s : String) : lineInv (pyRStrip ("* " ++ s)) := by
  have hdata : ("* " ++ s).data = '*' :: ' ' :: s.data := by
    simp [String.data_append]
  refine ⟨pyRStrip_idem _, ?_⟩
  by_cases hs : rstripL s.data = []
  · have hsp : rstripL (' ' :: s.data) = [] := by
      rw [rstripL_cons, if_pos hs]; simp [isPySpace]
    have hst : rstripL ('*' :: ' ' :: s.data) = ['*'] := by
      rw [rstripL_cons, if_pos hsp]; simp [isPySpace]
    right; left
    show stripL (rstripL ("* " ++ s).data) = ['*']
    rw [hdata, hst]
    decide
  · have hsp : rstripL (' ' :: s.data) = ' ' :: rstripL s.data := by
      rw [rstripL_cons, if_neg hs]
    have hst : rstripL ('*' :: ' ' :: s.data) = '*' :: ' ' :: rstripL s.data := by
      rw [rstripL_cons, hsp]
      simp
    left
    show isBullet (String.mk (rstripL ("* " ++ s).data)) = true
    rw [hdata, hst]
    simp [isBullet, List.dropWhile, isPySpace]

/-- Claim C10 (counterexample): `add_commit("")` on a fresh section stores
the bare line `"*"`, which does not match the claimed pattern "optional
whitespace, then `'*'` or `'-'`, then a space". -/
theorem sectionReach_bare_marker :
    SectionReach ["*"] ∧ isBullet "*" = false := by
  constructor
  · have h : addCommit [] "" = ["*"] := by decide
    have hr := SectionReach.add [] "" SectionReach.init
    rwa [h] at hr
  · decide

/-- Claim C10 (amended): after any sequence of `add_commit` and
`remove_duplicates` calls starting from a freshly constructed section,
every stored line carries no trailing whitespace and either starts with an
optional whitespace run followed by `'*'` or `'-'` and a whitespace
character, or collapses to a bare marker (which happens exactly when the
text after the marker is empty or all whitespace). -/
theorem sectionReach_lineInv (l : List String) (h : SectionReach l) :
    ∀ s ∈ l, lineInv s := by
  induction h with
  | init => intro s hs; simp at hs
  | add l t _ ih =>
    intro s hs
    have hmem : s ∈ l ∨ s = pyRStrip (if isBullet t then t else "* " ++ t) := by
      simpa [addCommit] using hs
    rcases hmem with h1 | h2
    · exact ih s h1
    · rw [h2]
      by_cases hb : isBullet t
      · rw [if_pos hb]; exact lineInv_rstrip_of_bullet t hb
      · rw [if_neg hb]; exact lineInv_rstrip_star t
  | dedup l _ ih =>
    intro s hs
    refine ih s ?_
    rw [removeDuplicates_eq_specKeepFirst] at hs
    exact (specKeepFirst_sublist l).subset hs

/-- Witness for C10 (amended) at the concrete section `["* x"]`. -/
theorem sectionReach_lineInv_witness : lineInv "* x" := by
  have h : addCommit [] "* x" = ["* x"] := by decide
  have hr := SectionReach.add [] "* x" SectionReach.init
  rw [h] at hr
  exact sectionReach_lineInv ["* x"] hr "* x" (by simp)

/-! ### The gateway fallback protocol (claim C5) -/

theorem updateLog_cons (secs : List (String × List String))
    (p : Option String × String) (rest : List (Option String × String)) :
    updateLog secs (p :: rest) =
      updateLog
        (match p.1 with
         | some c => if c ≠ "" then sectionsAdd secs c p.2 else secs
         | none => secs)
        rest := rfl

theorem updateLog_filter_isSome (secs : List (String × List String))
    (logUpdates : List (Option String × String)) :
    updateLog secs logUpdates =
      updateLog secs (logUpdates.filter fun p => p.1.isSome) := by
  induction logUpdates generalizing secs with
  | nil => rfl
  | cons p rest ih =>
    obtain ⟨c, t⟩ := p
    cases c with
    | none =>
      rw [updateLog_cons]
      have hf : ((none, t) :: rest).filter (fun p => p.1.isSome) =
          rest.filter (fun p => p.1.isSome) := by
        simp [List.filter_cons]
      rw [hf]
      exact ih secs
    | some c =>
      rw [updateLog_cons]
      have hf : ((some c, t) :: rest).filter (fun p => p.1.isSome) =
          (some c, t) :: rest.filter (fun p => p.1.isSome) := by
        simp [List.filter_cons]
      rw [hf, updateLog_cons]
      exact ih _

/-- Claim C5: with a non-empty pending batch, a null gateway result makes
`post_classification` merge the original un-refined batch; a truthy result
is merged instead; pairs with a null category are added to no section
(filtering them out of any merge changes nothing); and the pending batch is
cleared on every path. -/
theorem postClassification_contract (gw : Gateway) (r : Release)
    (hne : r.batched ≠ []) :
    (gw r.batched r.version = none →
        (postClassification gw r).1.sections = updateLog r.sections r.batched) ∧
      (∀ cs, gw r.batched r.version = some cs → cs ≠ [] →
        (postClassification gw r).1.sections = updateLog r.sections cs) ∧
      (∀ logUpdates, updateLog r.sections logUpdates =
        updateLog r.sections (logUpdates.filter fun p => p.1.isSome)) ∧
      (postClassification gw r).1.batched = [] := by
  have hlen : r.batched.length > 0 := List.length_pos.mpr hne
  refine ⟨?_, ?_, fun logUpdates => updateLog_filter_isSome r.sections logUpdates, ?_⟩
  · intro hgw
    simp [postClassification, hlen, hgw]
  · intro cs hgw hcs
    have hlcs : cs.length > 0 := List.length_pos.mpr hcs
    simp [postClassification, hlen, hgw, hlcs]
  · simp [postClassification, hlen]

/-- Witness for C5: a two-element batch (one null category, one Fixed) and
an unreachable gateway. -/
theorem postClassification_contract_witness :
    relC5.batched ≠ [] ∧
      (postClassification gwNone relC5).1.sections
          = updateLog relC5.sections relC5.batched ∧
      (postClassification gwNone relC5).1.batched = [] :=
  ⟨by decide,
   (postClassification_contract gwNone relC5 (by decide)).1 rfl,
   (postClassification_contract gwNone relC5 (by decide)).2.2.2⟩

/-! ### Release round trip (claim C3) -/

theorem join_foldl (l : List String) :
    ∀ acc : String, l.foldl (· ++ ·) acc = acc ++ String.join l := by
  induction l with
  | nil => intro acc; exact (String.append_empty acc).symm
  | cons s l ih =>
    intro acc
    show l.foldl (· ++ ·) (acc ++ s) = acc ++ String.join (s :: l)
    rw [ih (acc ++ s)]
    have hj : String.join (s :: l) = s ++ String.join l := by
      show l.foldl (· ++ ·) ("" ++ s) = s ++ String.join l
      rw [ih ("" ++ s), String.empty_append]
    rw [hj, String.append_assoc]

theorem join_cons (s : String) (l : List String) :
    String.join (s :: l) = s ++ String.join l := by
  show l.foldl (· ++ ·) ("" ++ s) = s ++ String.join l
  rw [join_foldl l ("" ++ s), String.empty_append]

theorem joinLines_cons_of_ne (x : String) (ys : List String) (h : ys ≠ []) :
    joinLines (x :: ys) = x ++ ("\n" ++ joinLines ys) := by
  cases ys with
  | nil => exact absurd rfl h
  | cons y ys => rfl

theorem joinLines_append (xs ys : List String) (hx : xs ≠ []) (hy : ys ≠ []) :
    joinLines (xs ++ ys) = joinLines xs ++ ("\n" ++ joinLines ys) := by
  induction xs with
  | nil => exact absurd rfl hx
  | cons x xs ih =>
    cases xs with
    | nil =>
      cases ys with
      | nil => exact absurd rfl hy
      | cons y ys => rfl
    | cons x2 xs2 =>
      have h2 : (x2 :: xs2) ++ ys ≠ [] := by simp
      rw [List.cons_append, joinLines_cons_of_ne x _ h2,
        joinLines_cons_of_ne x (x2 :: xs2) (by simp), ih (by simp)]
      simp [String.append_assoc]

theorem data_ne_nil_of_ne_empty (s : String) (h : s ≠ "") : s.data ≠ [] := by
  intro hc
  apply h
  have hs : s = String.mk s.data := rfl
  rw [hs, hc]

theorem joinLines_data_ne_nil (ls : List String) (h : ls ≠ [])
    (hl : ∀ l ∈ ls, l ≠ "") : (joinLines ls).data ≠ [] := by
  cases ls with
  | nil => exact absurd rfl h
  | cons l rest =>
    cases rest with
    | nil =>
      exact data_ne_nil_of_ne_empty l (hl l (by simp))
    | cons r rest2 =>
      rw [joinLines_cons_of_ne l _ (by simp), String.data_append]
      have := data_ne_nil_of_ne_empty l (hl l (by simp))
      simp [this]

theorem rstripL_joinLines (ls : List String) (h : ls ≠ [])
    (hl : ∀ l ∈ ls, pyRStrip l = l ∧ l ≠ "") :
    rstripL (joinLines ls).data = (joinLines ls).data := by
  induction ls with
  | nil => exact absurd rfl h
  | cons l rest ih =>
    cases rest with
    | nil =>
      have hfix := (hl l (by simp)).1
      exact congrArg String.data hfix
    | cons r rest2 =>
      rw [joinLines_cons_of_ne l _ (by simp), String.data_append,
        String.data_append]
      have hJ : rstripL (joinLines (r :: rest2)).data
          = (joinLines (r :: rest2)).data := by
        refine ih (by simp) ?_
        intro x hx
        exact hl x (by simp [hx])
      have hJne : (joinLines (r :: rest2)).data ≠ [] :=
        joinLines_data_ne_nil _ (by simp) (fun x hx => (hl x (by simp [hx])).2)
      have hnl : rstripL ('\n' :: (joinLines (r :: rest2)).data)
          = '\n' :: (joinLines (r :: rest2)).data := by
        rw [rstripL_cons, hJ, if_neg hJne]
      have hnlne : rstripL ("\n".data ++ (joinLines (r :: rest2)).data) ≠ [] := by
        show rstripL ('\n' :: (joinLines (r :: rest2)).data) ≠ []
        rw [hnl]
        simp
      rw [rstripL_append, if_neg hnlne]
      show l.data ++ rstripL ('\n' :: (joinLines (r :: rest2)).data) = _
      rw [hnl]
      rfl

theorem join_map_newline (ls : List String) (h : ls ≠ []) :
    String.join (ls.map (· ++ "\n")) = joinLines ls ++ "\n" := by
  induction ls with
  | nil => exact absurd rfl h
  | cons l rest ih =>
    cases rest with
    | nil =>
      show String.join [l ++ "\n"] = l ++ "\n"
      rw [join_cons]
      exact String.append_empty _
    | cons r rest2 =>
      rw [List.map_cons, join_cons, ih (by simp),
        joinLines_cons_of_ne l _ (by simp)]
      simp [String.append_assoc]

theorem pyStrip_sectionStr (t : String) (ls : List String) (h : ls ≠ [])
    (hl : ∀ l ∈ ls, pyRStrip l = l ∧ l ≠ "") :
    pyStrip (sectionStr t ls) = ("### " ++ t ++ "\n\n") ++ joinLines ls := by
  have hJ : rstripL (joinLines ls).data = (joinLines ls).data :=
    rstripL_joinLines ls h hl
  have hJne : (joinLines ls).data ≠ [] :=
    joinLines_data_ne_nil ls h (fun l hm => (hl l hm).2)
  have hX : (sectionStr t ls).data =
      ("### " ++ t ++ "\n\n").data ++ ((joinLines ls).data ++ ['\n']) := by
    show (("### " ++ t ++ "\n\n") ++ String.join (ls.map (· ++ "\n"))).data = _
    rw [join_map_newline ls h, String.data_append, String.data_append]
    rfl
  have hdrop : (sectionStr t ls).data.dropWhile isPySpace
      = (sectionStr t ls).data := by
    rw [hX]
    have : ("### " ++ t ++ "\n\n").data
        = '#' :: ("## " ++ t ++ "\n\n").data := by
      simp [String.data_append]
    rw [this, List.cons_append, List.dropWhile_cons]
    simp [isPySpace]
  have hrtl : rstripL ((joinLines ls).data ++ ['\n']) = (joinLines ls).data := by
    rw [rstripL_append]
    have : rstripL ['\n'] = [] := rfl
    rw [if_pos this, hJ]
  have hstr : rstripL ((sectionStr t ls).data) =
      ("### " ++ t ++ "\n\n").data ++ (joinLines ls).data := by
    rw [hX, rstripL_append, hrtl, if_neg hJne]
  show String.mk (stripL (sectionStr t ls).data) = _
  rw [stripL, lstripL, hdrop, hstr]
  have : (("### " ++ t ++ "\n\n") ++ joinLines ls).data
      = ("### " ++ t ++ "\n\n").data ++ (joinLines ls).data :=
    String.data_append _ _
  rw [← this]

theorem nl2 (x : String) : "\n" ++ ("\n" ++ x) = "\n\n" ++ x := by
  rw [← String.append_assoc]
  have h : ("\n" ++ "\n" : String) = "\n\n" := rfl
  rw [h]

theorem joinLines_linesBlocks (secs : List (String × List String))
    (hsecs : ∀ p ∈ secs, ∀ l ∈ p.2, pyRStrip l = l ∧ l ≠ "") :
    joinLines (linesBlocks secs ++ [""]) = String.join (secs.map gString) := by
  induction secs with
  | nil => rfl
  | cons p rest ih =>
    obtain ⟨t, ls⟩ := p
    have ihr := ih (fun q hq l hl => hsecs q (by simp [hq]) l hl)
    by_cases hls : ls = []
    · subst hls
      have hc : hasContent ([] : List String) = false := rfl
      simp only [linesBlocks, List.map_cons, List.flatten_cons, secLines, hc,
        Bool.false_eq_true, if_false, List.nil_append, List.map_cons,
        join_cons, gString]
      rw [String.empty_append]
      exact ihr
    · have hc : hasContent ls = true := by
        simp [hasContent, List.length_pos, hls]
      have hlines : ∀ l ∈ ls, pyRStrip l = l ∧ l ≠ "" := by
        intro l hl
        exact hsecs (t, ls) (by simp) l hl
      have hblock : linesBlocks ((t, ls) :: rest) ++ [""]
          = ("### " ++ t) :: "" :: (ls ++ ("" :: (linesBlocks rest ++ [""]))) := by
        simp [linesBlocks, secLines, hc, List.append_assoc]
      rw [hblock, joinLines_cons_of_ne _ _ (by simp),
        joinLines_cons_of_ne "" _ (by simp [hls]),
        joinLines_append ls _ hls (by simp),
        joinLines_cons_of_ne "" _ (by simp), ihr,
        List.map_cons, join_cons, gString]
      rw [if_pos hc, pyStrip_sectionStr t ls hls hlines]
      simp [nl2, String.append_assoc, String.empty_append]

theorem foldl_sections_append (secs : List (String × List String)) :
    ∀ init : String,
      secs.foldl
        (fun content p =>
          if hasContent p.2 then content ++ (pyStrip (sectionStr p.1 p.2) ++ "\n\n")
          else content) init
      = init ++ String.join (secs.map gString) := by
  induction secs with
  | nil => intro init; exact (String.append_empty init).symm
  | cons p rest ih =>
    intro init
    by_cases hc : hasContent p.2
    · simp only [List.foldl_cons, if_pos hc, List.map_cons, join_cons]
      rw [ih, gString, if_pos hc, String.append_assoc]
    · simp only [List.foldl_cons, if_neg hc, List.map_cons, join_cons]
      rw [ih, gString, if_neg hc, String.empty_append]

theorem releaseStr_join (r : Release) :
    releaseStr r = (releaseHeader r ++ "\n\n") ++ String.join (r.sections.map gString) := by
  show r.sections.foldl _ (releaseHeader r ++ "\n\n") = _
  exact foldl_sections_append r.sections _

theorem releaseStr_eq_joinLines (r : Release)
    (hsecs : ∀ p ∈ r.sections, ∀ l ∈ p.2, pyRStrip l = l ∧ l ≠ "") :
    releaseStr r
      = joinLines (releaseHeader r :: "" :: (linesBlocks r.sections ++ [""])) := by
  rw [releaseStr_join r, joinLines_cons_of_ne _ _ (by simp),
    joinLines_cons_of_ne "" _ (by simp),
    joinLines_linesBlocks r.sections hsecs]
  simp [nl2, String.append_assoc, String.empty_append]

theorem splitLinesAux_pass (ld : List Char) (hld : '\n' ∉ ld) :
    ∀ cur tail : List Char,
      splitLinesAux (ld ++ tail) cur = splitLinesAux tail (ld.reverse ++ cur) := by
  induction ld with
  | nil => intro cur tail; simp
  | cons c ld ih =>
    intro cur tail
    have hc : ¬ (c = '\n') := by
      intro hcc
      exact hld (hcc ▸ List.mem_cons_self c ld)
    show splitLinesAux (c :: (ld ++ tail)) cur = _
    rw [splitLinesAux, if_neg hc, ih (by intro hm; exact hld (List.mem_cons_of_mem c hm)) (c :: cur) tail]
    simp [List.append_assoc]

theorem splitLines_joinLines (lines : List String) (h : lines ≠ [])
    (hl : ∀ l ∈ lines, '\n' ∉ l.data) :
    splitLines (joinLines lines) = lines := by
  induction lines with
  | nil => exact absurd rfl h
  | cons l rest ih =>
    cases rest with
    | nil =>
      show splitLinesAux (joinLines [l]).data [] = [l]
      have hdata : (joinLines [l]).data = l.data ++ [] := by simp [joinLines]
      rw [hdata, splitLinesAux_pass l.data (hl l (by simp)) [] []]
      simp only [splitLinesAux, List.append_nil, List.reverse_reverse]
    | cons r rest2 =>
      have hdata : (joinLines (l :: r :: rest2)).data
          = l.data ++ ('\n' :: (joinLines (r :: rest2)).data) := by
        rw [joinLines_cons_of_ne l _ (by simp), String.data_append,
          String.data_append]
        rfl
      show splitLinesAux (joinLines (l :: r :: rest2)).data [] = _
      rw [hdata, splitLinesAux_pass l.data (hl l (by simp)) []]
      rw [splitLinesAux, if_pos rfl]
      have htail : splitLinesAux (joinLines (r :: rest2)).data [] = r :: rest2 :=
        ih (by simp) (fun x hx => hl x (by simp [hx]))
      rw [htail]
      simp only [List.append_nil, List.reverse_reverse]

theorem isBullet_data_ne_nil (s : String) (h : isBullet s = true) :
    s.data ≠ [] := by
  intro hc
  rw [isBullet, hc] at h
  simp at h

theorem bullet_ne_empty (s : String) (h : isBullet s = true) : s ≠ "" := by
  intro hc
  exact isBullet_data_ne_nil s h (by rw [hc])

theorem sectionsAdd_map_fst (secs : List (String × List String))
    (k l : String) :
    (sectionsAdd secs k l).map Prod.fst = secs.map Prod.fst := by
  induction secs with
  | nil => rfl
  | cons p rest ih =>
    simp only [sectionsAdd, List.map_cons] at ih ⊢
    by_cases h : p.1 = k
    · simp [h, ih]
    · simp [h, ih]

theorem addLines_map_fst (ls : List String) :
    ∀ (secs : List (String × List String)) (k : String),
      (addLines secs k ls).map Prod.fst = secs.map Prod.fst := by
  induction ls with
  | nil => intro secs k; rfl
  | cons l rest ih =>
    intro secs k
    show (addLines (sectionsAdd secs k l) k rest).map Prod.fst = _
    rw [ih (sectionsAdd secs k l) k, sectionsAdd_map_fst]

theorem lookup_sectionsAdd (secs : List (String × List String))
    (k l q : String) :
    List.lookup q (sectionsAdd secs k l) =
      if q = k then (List.lookup q secs).map (fun cur => addCommit cur l)
      else List.lookup q secs := by
  induction secs with
  | nil => by_cases h : q = k <;> simp [sectionsAdd, List.lookup, h]
  | cons p rest ih =>
    obtain ⟨k1, v1⟩ := p
    by_cases hk1 : k1 = k
    · have hs : sectionsAdd ((k1, v1) :: rest) k l
          = (k1, addCommit v1 l) :: sectionsAdd rest k l := by
        simp [sectionsAdd, hk1]
      rw [hs]
      by_cases hq : q = k1
      · have hbeq : (q == k1) = true := by simp [hq]
        have hqk : q = k := hq.trans hk1
        simp [List.lookup_cons, hbeq, hqk, hk1]
      · have hbeq : (q == k1) = false := by simp [hq]
        have hqk : ¬ q = k := fun h => hq (h.trans hk1.symm)
        simp [List.lookup_cons, hbeq, hqk, ih]
    · have hs : sectionsAdd ((k1, v1) :: rest) k l
          = (k1, v1) :: sectionsAdd rest k l := by
        simp [sectionsAdd, hk1]
      rw [hs]
      by_cases hq : q = k1
      · have hbeq : (q == k1) = true := by simp [hq]
        have hqk : ¬ q = k := fun h => hk1 (hq.symm.trans h)
        simp [List.lookup_cons, hbeq, hqk]
      · have hbeq : (q == k1) = false := by simp [hq]
        simp [List.lookup_cons, hbeq, ih]

theorem lookup_addLines (ls : List String) :
    ∀ (secs : List (String × List String)) (k q : String),
      List.lookup q (addLines secs k ls) =
        if q = k then (List.lookup q secs).map (fun cur => ls.foldl addCommit cur)
        else List.lookup q secs := by
  induction ls with
  | nil =>
    intro secs k q
    by_cases h : q = k
    · simp [addLines, h, Option.map_id]
    · simp [addLines, h]
  | cons l rest ih =>
    intro secs k q
    show List.lookup q (addLines (sectionsAdd secs k l) k rest) = _
    rw [ih (sectionsAdd secs k l) k q, lookup_sectionsAdd]
    by_cases h : q = k
    · simp only [if_pos h, Option.map_map]
      rfl
    · simp only [if_neg h]

theorem foldl_addCommit_good (ls : List String)
    (h : ∀ l ∈ ls, isBullet l = true ∧ pyRStrip l = l) :
    ∀ cur : List String, ls.foldl addCommit cur = cur ++ ls := by
  induction ls with
  | nil => intro cur; simp
  | cons l rest ih =>
    intro cur
    obtain ⟨hb, hr⟩ := h l (by simp)
    have hstep : addCommit cur l = cur ++ [l] := by
      rw [addCommit]
      simp only [if_pos hb]
      rw [hr]
    show rest.foldl addCommit (addCommit cur l) = _
    rw [hstep, ih (fun x hx => h x (by simp [hx])) (cur ++ [l]),
      List.append_assoc]
    rfl

theorem mem_dropWhile_of_not (p : Char → Bool) (c : Char) :
    ∀ l : List Char, c ∈ l → ¬ p c = true → c ∈ l.dropWhile p := by
  intro l
  induction l with
  | nil => intro h; simp at h
  | cons x rest ih =>
    intro hmem hnp
    by_cases hx : p x
    · rw [List.dropWhile_cons, if_pos hx]
      rcases List.mem_cons.mp hmem with rfl | hm
      · exact absurd hx hnp
      · exact ih hm hnp
    · rw [List.dropWhile_cons, if_neg hx]
      exact hmem

theorem mem_rstripL_of_not (c : Char) (l : List Char) (hmem : c ∈ l)
    (hns : ¬ isPySpace c = true) : c ∈ rstripL l := by
  rw [rstripL, List.mem_reverse]
  exact mem_dropWhile_of_not isPySpace c l.reverse (List.mem_reverse.mpr hmem) hns

theorem mem_stripL_of_not (c : Char) (l : List Char) (hmem : c ∈ l)
    (hns : ¬ isPySpace c = true) : c ∈ stripL l :=
  mem_rstripL_of_not c _ (mem_dropWhile_of_not isPySpace c l hmem hns) hns

theorem notCat_of_mem_dash (x : String) (h : '-' ∈ x.data) :
    x ∉ categoryNames := by
  intro hin
  simp only [categoryNames, List.mem_cons, List.mem_singleton] at hin
  rcases hin with rfl | rfl | rfl | rfl | rfl | h5 <;> first
    | (revert h; decide)
    | simp at h5

theorem notCat_header (v d : String) :
    pyLower (pyStrip (pyLStripHash ("## " ++ v ++ " - " ++ d))) ∉
      categoryNames := by
  apply notCat_of_mem_dash
  have h0 : '-' ∈ ("## " ++ v ++ " - " ++ d).data := by
    simp [String.data_append]
  have h1 : '-' ∈ (pyLStripHash ("## " ++ v ++ " - " ++ d)).data :=
    mem_dropWhile_of_not _ '-' _ h0 (by decide)
  have h2 : '-' ∈ (pyStrip (pyLStripHash ("## " ++ v ++ " - " ++ d))).data :=
    mem_stripL_of_not '-' _ h1 (by decide)
  show '-' ∈ List.map pyLowerChar _
  have : pyLowerChar '-' = '-' := rfl
  rw [← this]
  exact List.mem_map_of_mem pyLowerChar h2

theorem notCat_empty :
    pyLower (pyStrip (pyLStripHash "")) ∉ categoryNames := by
  decide

theorem notCat_bullet (b : String) (hb : isBullet b = true) :
    pyLower (pyStrip (pyLStripHash b)) ∉ categoryNames := by
  rcases hmatch : b.data.dropWhile isPySpace with _ | ⟨m, z⟩
  · rw [isBullet, hmatch] at hb; simp at hb
  · have hm : m = '*' ∨ m = '-' := by
      rcases z with _ | ⟨d2, z2⟩
      · rw [isBullet, hmatch] at hb; simp at hb
      · rw [isBullet, hmatch] at hb
        have := (Bool.and_eq_true _ _ ▸ hb).1
        rcases Bool.or_eq_true _ _ ▸ this with h1 | h1
        · exact Or.inl (by simpa using h1)
        · exact Or.inr (by simpa using h1)
    have hmns : ¬ isPySpace m = true := by
      rcases hm with rfl | rfl <;> decide
    have hlstrip : pyLStripHash b = b := by
      rcases hbd : b.data with _ | ⟨c0, tl⟩
      · exact absurd hbd (isBullet_data_ne_nil b hb)
      · have hc0 : ¬ (c0 == '#') = true := by
          by_cases hws : isPySpace c0 = true
          · intro hc
            have : c0 = '#' := by simpa using hc
            rw [this] at hws
            exact absurd hws (by decide)
          · have : b.data.dropWhile isPySpace = c0 :: tl := by
              rw [hbd, List.dropWhile_cons, if_neg hws]
            rw [hmatch] at this
            have hc0m : c0 = m := (List.cons.injEq _ _ _ _ ▸ this).1.symm
            rw [hc0m]
            rcases hm with rfl | rfl <;> decide
        have hdw : b.data.dropWhile (· == '#') = b.data := by
          rw [hbd, List.dropWhile_cons, if_neg hc0]
        show String.mk (b.data.dropWhile (· == '#')) = b
        rw [hdw]
    rw [hlstrip]
    have hstrip : (pyStrip b).data = m :: rstripL z ∨ (pyStrip b).data = [m] := by
      show stripL b.data = m :: rstripL z ∨ stripL b.data = [m]
      rw [stripL, lstripL, hmatch, rstripL_cons]
      by_cases hz : rstripL z = []
      · right; rw [if_pos hz, if_neg hmns]
      · left; rw [if_neg hz]
    intro hin
    have hlow : (pyLower (pyStrip b)).data = m :: (rstripL z).map pyLowerChar ∨
        (pyLower (pyStrip b)).data = [m] := by
      have hmfix : pyLowerChar m = m := by
        rcases hm with rfl | rfl <;> rfl
      rcases hstrip with h1 | h1
      · left
        show ((pyStrip b).data.map pyLowerChar) = _
        rw [h1, List.map_cons, hmfix]
      · right
        show ((pyStrip b).data.map pyLowerChar) = _
        rw [h1, List.map_cons, hmfix, List.map_nil]
    have hheads : ∀ s ∈ categoryNames,
        s.data.headD ' ' ≠ '*' ∧ s.data.headD ' ' ≠ '-' := by decide
    obtain ⟨hns, hnd⟩ := hheads _ hin
    rcases hlow with h1 | h1 <;>
      · have hhd : (pyLower (pyStrip b)).data.headD ' ' = m := by rw [h1]; rfl
        rcases hm with rfl | rfl
        · exact hns hhd
        · exact hnd hhd

theorem readAux_cons (secs : List (String × List String)) (line : String)
    (rest : List String) :
    releaseReadAux secs (line :: rest) =
      releaseReadAux
        (if pyLower (pyStrip (pyLStripHash line)) ∈ categoryNames
         then readSectionScan secs (pyCapitalize (pyStrip (pyLStripHash line))) rest
         else secs) rest := rfl

theorem readAux_skip (secs : List (String × List String)) (line : String)
    (rest : List String)
    (h : pyLower (pyStrip (pyLStripHash line)) ∉ categoryNames) :
    releaseReadAux secs (line :: rest) = releaseReadAux secs rest := by
  rw [readAux_cons, if_neg h]

theorem readAux_cat (secs : List (String × List String)) (line : String)
    (rest : List String)
    (h : pyLower (pyStrip (pyLStripHash line)) ∈ categoryNames) :
    releaseReadAux secs (line :: rest) =
      releaseReadAux
        (readSectionScan secs (pyCapitalize (pyStrip (pyLStripHash line))) rest)
        rest := by
  rw [readAux_cons, if_pos h]

theorem readAux_skip_all (ls : List String)
    (h : ∀ l ∈ ls, pyLower (pyStrip (pyLStripHash l)) ∉ categoryNames) :
    ∀ (secs : List (String × List String)) (tail : List String),
      releaseReadAux secs (ls ++ tail) = releaseReadAux secs tail := by
  induction ls with
  | nil => intro secs tail; rfl
  | cons l rest ih =>
    intro secs tail
    rw [List.cons_append, readAux_skip secs l _ (h l (by simp)),
      ih (fun x hx => h x (by simp [hx])) secs tail]

theorem scan_cons (secs : List (String × List String)) (t l : String)
    (rest : List String) :
    readSectionScan secs t (l :: rest) =
      if isBullet l then readSectionScan (sectionsAdd secs t l) t rest
      else if isHeading l then secs
      else readSectionScan secs t rest := rfl

theorem scan_blank (secs : List (String × List String)) (t : String)
    (rest : List String) :
    readSectionScan secs t ("" :: rest) = readSectionScan secs t rest := by
  rw [scan_cons]
  have h1 : isBullet "" = false := rfl
  have h2 : isHeading "" = false := rfl
  rw [h1, h2]
  simp

theorem scan_bullets (ls : List String) (h : ∀ l ∈ ls, isBullet l = true) :
    ∀ (secs : List (String × List String)) (t : String) (tail : List String),
      readSectionScan secs t (ls ++ tail) =
        readSectionScan (addLines secs t ls) t tail := by
  induction ls with
  | nil => intro secs t tail; rfl
  | cons l rest ih =>
    intro secs t tail
    rw [List.cons_append, scan_cons, if_pos (h l (by simp)),
      ih (fun x hx => h x (by simp [hx])) (sectionsAdd secs t l) t tail]
    rfl

theorem secHeader_data (t : String) :
    ("### " ++ t).data = '#' :: '#' :: '#' :: ' ' :: t.data := by
  simp [String.data_append]

theorem isBullet_secHeader (t : String) : isBullet ("### " ++ t) = false := by
  simp only [isBullet, secHeader_data]
  rfl

theorem isHeading_secHeader (t : String) : isHeading ("### " ++ t) = true := by
  simp only [isHeading, secHeader_data]
  rfl

theorem scan_heading_sec (secs : List (String × List String))
    (t t' : String) (rest : List String) :
    readSectionScan secs t (("### " ++ t') :: rest) = secs := by
  rw [scan_cons, isBullet_secHeader, isHeading_secHeader]
  simp

theorem scan_stops_blocks (bs : List (String × List String)) :
    ∀ (secs : List (String × List String)) (t : String),
      readSectionScan secs t (linesBlocks bs ++ [""]) = secs := by
  induction bs with
  | nil =>
    intro secs t
    show readSectionScan secs t ("" :: []) = secs
    rw [scan_blank]
    rfl
  | cons p rest ih =>
    intro secs t
    by_cases hc : hasContent p.2
    · have hblock : linesBlocks (p :: rest) ++ [""]
          = ("### " ++ p.1) :: ("" :: (p.2 ++ ([""] ++ (linesBlocks rest ++ [""])))) := by
        simp [linesBlocks, secLines, hc, List.append_assoc]
      rw [hblock, scan_heading_sec]
    · have hblock : linesBlocks (p :: rest) ++ [""] = linesBlocks rest ++ [""] := by
        simp [linesBlocks, secLines, hc]
      rw [hblock, ih]

theorem readAux_blocks (bs : List (String × List String))
    (hk : ∀ p ∈ bs,
      pyLower (pyStrip (pyLStripHash ("### " ++ p.1))) ∈ categoryNames ∧
        pyCapitalize (pyStrip (pyLStripHash ("### " ++ p.1))) = p.1)
    (hl : ∀ p ∈ bs, ∀ l ∈ p.2, isBullet l = true) :
    ∀ secs : List (String × List String),
      releaseReadAux secs (linesBlocks bs ++ [""]) =
        bs.foldl
          (fun s p => if hasContent p.2 then addLines s p.1 p.2 else s) secs := by
  induction bs with
  | nil =>
    intro secs
    show releaseReadAux secs ("" :: []) = secs
    rw [readAux_skip secs "" [] notCat_empty]
    rfl
  | cons p rest ih =>
    intro secs
    have ihr := ih (fun q hq => hk q (by simp [hq]))
      (fun q hq l hlm => hl q (by simp [hq]) l hlm)
    by_cases hc : hasContent p.2
    · obtain ⟨hcat, hcap⟩ := hk p (by simp)
      have hbul : ∀ l ∈ p.2, isBullet l = true := hl p (by simp)
      have hblock : linesBlocks (p :: rest) ++ [""]
          = ("### " ++ p.1) :: ("" :: (p.2 ++ ("" :: (linesBlocks rest ++ [""])))) := by
        simp [linesBlocks, secLines, hc, List.append_assoc]
      rw [hblock, readAux_cat _ _ _ hcat, hcap, scan_blank,
        scan_bullets p.2 hbul, scan_blank, scan_stops_blocks rest,
        readAux_skip _ "" _ notCat_empty,
        readAux_skip_all p.2 (fun l hlm => notCat_bullet l (hbul l hlm)),
        readAux_skip _ "" _ notCat_empty, ihr (addLines secs p.1 p.2)]
      show _ = List.foldl _ (if hasContent p.2 then addLines secs p.1 p.2 else secs) rest
      rw [if_pos hc]
    · have hblock : linesBlocks (p :: rest) ++ [""] = linesBlocks rest ++ [""] := by
        simp [linesBlocks, secLines, hc]
      rw [hblock, ihr secs]
      show _ = List.foldl _ (if hasContent p.2 then addLines secs p.1 p.2 else secs) rest
      rw [if_neg hc]

theorem fold_map_fst (bs : List (String × List String)) :
    ∀ s : List (String × List String),
      ((bs.foldl
        (fun s p => if hasContent p.2 then addLines s p.1 p.2 else s) s).map
          Prod.fst) = s.map Prod.fst := by
  induction bs with
  | nil => intro s; rfl
  | cons p rest ih =>
    intro s
    show ((rest.foldl _ (if hasContent p.2 then addLines s p.1 p.2 else s)).map
      Prod.fst) = _
    rw [ih]
    by_cases hc : hasContent p.2
    · rw [if_pos hc, addLines_map_fst]
    · rw [if_neg hc]

theorem lookup_none_of_not_mem_fst (q : String) :
    ∀ L : List (String × List String),
      q ∉ L.map Prod.fst → List.lookup q L = none := by
  intro L
  induction L with
  | nil => intro _; rfl
  | cons p rest ih =>
    intro h
    obtain ⟨k, v⟩ := p
    have hq : ¬ q = k := by
      intro hc
      exact h (by simp [hc])
    have hbeq : (q == k) = false := by simp [hq]
    rw [List.lookup_cons, hbeq]
    exact ih (fun hm => h (by simp [List.map_cons]; right; simpa using hm))

theorem assoc_ext (R : List (String × List String)) :
    ∀ S : List (String × List String),
      R.map Prod.fst = S.map Prod.fst →
      (S.map Prod.fst).Nodup →
      (∀ q, List.lookup q R = List.lookup q S) → R = S := by
  induction R with
  | nil =>
    intro S hfst _ _
    cases S with
    | nil => rfl
    | cons s S2 => simp at hfst
  | cons p R2 ih =>
    intro S hfst hnd hlk
    cases S with
    | nil => simp at hfst
    | cons s S2 =>
      obtain ⟨k, v⟩ := p
      obtain ⟨k2, v2⟩ := s
      simp only [List.map_cons, List.cons.injEq] at hfst
      obtain ⟨hk, htail⟩ := hfst
      subst hk
      have hbeqk : (k == k) = true := by simp
      have hv : v = v2 := by
        have h1 := hlk k
        rw [List.lookup_cons, hbeqk, List.lookup_cons, hbeqk] at h1
        exact Option.some.inj h1
      subst hv
      have hnd2 : (S2.map Prod.fst).Nodup := (List.nodup_cons.mp (by simpa using hnd)).2
      have hknotin : k ∉ S2.map Prod.fst := (List.nodup_cons.mp (by simpa using hnd)).1
      have hlk2 : ∀ q, List.lookup q R2 = List.lookup q S2 := by
        intro q
        by_cases hq : q = k
        · subst hq
          rw [lookup_none_of_not_mem_fst q R2 (htail ▸ hknotin),
            lookup_none_of_not_mem_fst q S2 hknotin]
        · have hbeq : (q == k) = false := by simp [hq]
          have h1 := hlk q
          rw [List.lookup_cons, hbeq, List.lookup_cons, hbeq] at h1
          exact h1
      rw [ih S2 htail hnd2 hlk2]

theorem lk_step_ne (q k : String) (x : List String)
    (s : List (String × List String)) (h : ¬ q = k) :
    List.lookup q (if hasContent x then addLines s k x else s) =
      List.lookup q s := by
  by_cases hc : hasContent x
  · rw [if_pos hc, lookup_addLines, if_neg h]
  · rw [if_neg hc]

theorem lk_step_eq (q : String) (x : List String)
    (s : List (String × List String)) :
    List.lookup q (if hasContent x then addLines s q x else s) =
      if hasContent x
      then (List.lookup q s).map (fun cur => x.foldl addCommit cur)
      else List.lookup q s := by
  by_cases hc : hasContent x
  · rw [if_pos hc, if_pos hc, lookup_addLines, if_pos rfl]
  · rw [if_neg hc, if_neg hc]

theorem no_nl_header (v d : String) (hv : '\n' ∉ v.data) (hd : '\n' ∉ d.data) :
    '\n' ∉ ("## " ++ v ++ " - " ++ d).data := by
  intro h
  simp only [String.data_append, List.mem_append] at h
  rcases h with (h | h) | h
  · rcases h with h | h
    · revert h; decide
    · exact hv h
  · revert h; decide
  · exact hd h

theorem no_nl_blocks (bs : List (String × List String))
    (h : ∀ p ∈ bs, ('\n' ∉ ("### " ++ p.1).data) ∧ ∀ l ∈ p.2, '\n' ∉ l.data) :
    ∀ l ∈ linesBlocks bs, '\n' ∉ l.data := by
  induction bs with
  | nil => intro l hl; simp [linesBlocks] at hl
  | cons p rest ih =>
    intro l hl
    have ihr := ih (fun q hq => h q (by simp [hq]))
    by_cases hc : hasContent p.2
    · have hblock : linesBlocks (p :: rest)
          = ("### " ++ p.1) :: "" :: (p.2 ++ [""]) ++ linesBlocks rest := by
        simp [linesBlocks, secLines, hc]
      rw [hblock] at hl
      rcases List.mem_append.mp hl with h1 | h2
      · rcases List.mem_cons.mp h1 with rfl | h3
        · exact (h p (by simp)).1
        · rcases List.mem_cons.mp h3 with rfl | h4
          · simp
          · rcases List.mem_append.mp h4 with h5 | h6
            · exact (h p (by simp)).2 l h5
            · have : l = "" := by simpa using h6
              rw [this]; simp
      · exact ihr l h2
    · have hblock : linesBlocks (p :: rest) = linesBlocks rest := by
        simp [linesBlocks, secLines, hc]
      rw [hblock] at hl
      exact ihr l hl

/-- Claim C3 (amended): rendering a `Release` whose stored lines are full
bullets (marker followed by whitespace and text), right-stripped and free
of embedded newlines — which population guarantees except when a classified
commit's cleaned text collapses to a bare marker — and reading the
resulting lines into a fresh `Release` reproduces exactly the same line
sequence in every category section, with empty categories staying empty. -/
theorem release_roundtrip (v d : String) (a c f rm dp : List String)
    (hv : '\n' ∉ v.data) (hd : '\n' ∉ d.data)
    (ha : ∀ l ∈ a, goodLine l) (hc : ∀ l ∈ c, goodLine l)
    (hf : ∀ l ∈ f, goodLine l) (hrm : ∀ l ∈ rm, goodLine l)
    (hdp : ∀ l ∈ dp, goodLine l) :
    (Release.read (Release.init v d)
        (splitLines (releaseStr
          { version := v, date := d,
            sections := [("Added", a), ("Changed", c), ("Fixed", f),
              ("Removed", rm), ("Deprecated", dp)], batched := [] }))).sections
      = [("Added", a), ("Changed", c), ("Fixed", f), ("Removed", rm),
         ("Deprecated", dp)] := by
  have hgood : ∀ p ∈ ([("Added", a), ("Changed", c), ("Fixed", f),
      ("Removed", rm), ("Deprecated", dp)] : List (String × List String)),
      ∀ l ∈ p.2, goodLine l := by
    intro p hp
    simp only [List.mem_cons, List.not_mem_nil, or_false] at hp
    rcases hp with rfl | rfl | rfl | rfl | rfl
    · exact ha
    · exact hc
    · exact hf
    · exact hrm
    · exact hdp
  have hsecs : ∀ p ∈ ([("Added", a), ("Changed", c), ("Fixed", f),
      ("Removed", rm), ("Deprecated", dp)] : List (String × List String)),
      ∀ l ∈ p.2, pyRStrip l = l ∧ l ≠ "" := by
    intro p hp l hl
    exact ⟨(hgood p hp l hl).2.1, bullet_ne_empty l (hgood p hp l hl).1⟩
  have hnlAll : ∀ l ∈ (("## " ++ v ++ " - " ++ d) :: "" ::
      (linesBlocks [("Added", a), ("Changed", c), ("Fixed", f),
        ("Removed", rm), ("Deprecated", dp)] ++ [""])), '\n' ∉ l.data := by
    intro l hl
    rcases List.mem_cons.mp hl with rfl | hl2
    · exact no_nl_header v d hv hd
    · rcases List.mem_cons.mp hl2 with rfl | hl3
      · simp
      · rcases List.mem_append.mp hl3 with hl4 | hl5
        · refine no_nl_blocks _ ?_ l hl4
          intro p hp
          refine ⟨?_, fun x hx => (hgood p hp x hx).2.2⟩
          simp only [List.mem_cons, List.not_mem_nil, or_false] at hp
          rcases hp with rfl | rfl | rfl | rfl | rfl
          · show '\n' ∉ ("### " ++ "Added").data
            decide
          · show '\n' ∉ ("### " ++ "Changed").data
            decide
          · show '\n' ∉ ("### " ++ "Fixed").data
            decide
          · show '\n' ∉ ("### " ++ "Removed").data
            decide
          · show '\n' ∉ ("### " ++ "Deprecated").data
            decide
        · have : l = "" := by simpa using hl5
          rw [this]; simp
  have hsplit : splitLines (releaseStr
      { version := v, date := d,
        sections := [("Added", a), ("Changed", c), ("Fixed", f),
          ("Removed", rm), ("Deprecated", dp)], batched := [] })
      = ("## " ++ v ++ " - " ++ d) :: "" ::
        (linesBlocks [("Added", a), ("Changed", c), ("Fixed", f),
          ("Removed", rm), ("Deprecated", dp)] ++ [""]) := by
    have h1 : releaseStr
        { version := v, date := d,
          sections := [("Added", a), ("Changed", c), ("Fixed", f),
            ("Removed", rm), ("Deprecated", dp)], batched := [] }
        = joinLines (("## " ++ v ++ " - " ++ d) :: "" ::
          (linesBlocks [("Added", a), ("Changed", c), ("Fixed", f),
            ("Removed", rm), ("Deprecated", dp)] ++ [""])) :=
      releaseStr_eq_joinLines _ hsecs
    rw [h1]
    exact splitLines_joinLines _ (by simp) hnlAll
  show releaseReadAux initSections
      (splitLines (releaseStr
        { version := v, date := d,
          sections := [("Added", a), ("Changed", c), ("Fixed", f),
            ("Removed", rm), ("Deprecated", dp)], batched := [] })) = _
  rw [hsplit, readAux_skip _ _ _ (notCat_header v d),
    readAux_skip _ "" _ notCat_empty,
    readAux_blocks _
      (by
        intro p hp
        simp only [List.mem_cons, List.not_mem_nil, or_false] at hp
        rcases hp with rfl | rfl | rfl | rfl | rfl
        · exact show pyLower (pyStrip (pyLStripHash ("### " ++ "Added"))) ∈
              categoryNames ∧
              pyCapitalize (pyStrip (pyLStripHash ("### " ++ "Added")))
                = "Added" from ⟨by decide, by decide⟩
        · exact show pyLower (pyStrip (pyLStripHash ("### " ++ "Changed"))) ∈
              categoryNames ∧
              pyCapitalize (pyStrip (pyLStripHash ("### " ++ "Changed")))
                = "Changed" from ⟨by decide, by decide⟩
        · exact show pyLower (pyStrip (pyLStripHash ("### " ++ "Fixed"))) ∈
              categoryNames ∧
              pyCapitalize (pyStrip (pyLStripHash ("### " ++ "Fixed")))
                = "Fixed" from ⟨by decide, by decide⟩
        · exact show pyLower (pyStrip (pyLStripHash ("### " ++ "Removed"))) ∈
              categoryNames ∧
              pyCapitalize (pyStrip (pyLStripHash ("### " ++ "Removed")))
                = "Removed" from ⟨by decide, by decide⟩
        · exact show pyLower (pyStrip (pyLStripHash ("### " ++ "Deprecated"))) ∈
              categoryNames ∧
              pyCapitalize (pyStrip (pyLStripHash ("### " ++ "Deprecated")))
                = "Deprecated" from ⟨by decide, by decide⟩)
      (fun p hp l hl => (hgood p hp l hl).1)
      initSections]
  apply assoc_ext
  · rw [fold_map_fst]
    rfl
  · have hfst : (([("Added", a), ("Changed", c), ("Fixed", f),
        ("Removed", rm), ("Deprecated", dp)] :
          List (String × List String)).map Prod.fst)
        = ["Added", "Changed", "Fixed", "Removed", "Deprecated"] := rfl
    rw [hfst]
    decide
  · intro q
    simp only [List.foldl_cons, List.foldl_nil]
    by_cases h1 : q = "Added"
    · subst h1
      rw [lk_step_ne _ "Deprecated" _ _ (by decide),
        lk_step_ne _ "Removed" _ _ (by decide),
        lk_step_ne _ "Fixed" _ _ (by decide),
        lk_step_ne _ "Changed" _ _ (by decide), lk_step_eq]
      have hinit : List.lookup "Added" initSections = some [] := rfl
      have hS : List.lookup "Added"
          ([("Added", a), ("Changed", c), ("Fixed", f), ("Removed", rm),
            ("Deprecated", dp)] : List (String × List String)) = some a := rfl
      rw [hinit, hS]
      by_cases hca : hasContent a
      · rw [if_pos hca, Option.map_some',
          foldl_addCommit_good a (fun l hl => ⟨(ha l hl).1, (ha l hl).2.1⟩) []]
        rfl
      · rw [if_neg hca]
        have hae : a = [] := by
          by_contra hne
          exact hca (by simp [hasContent, List.length_pos, hne])
        rw [hae]
    · by_cases h2 : q = "Changed"
      · subst h2
        rw [lk_step_ne _ "Deprecated" _ _ (by decide),
          lk_step_ne _ "Removed" _ _ (by decide),
          lk_step_ne _ "Fixed" _ _ (by decide), lk_step_eq,
          lk_step_ne _ "Added" _ _ (by decide)]
        have hinit : List.lookup "Changed" initSections = some [] := rfl
        have hS : List.lookup "Changed"
            ([("Added", a), ("Changed", c), ("Fixed", f), ("Removed", rm),
              ("Deprecated", dp)] : List (String × List String)) = some c := rfl
        rw [hinit, hS]
        by_cases hcc : hasContent c
        · rw [if_pos hcc, Option.map_some',
            foldl_addCommit_good c (fun l hl => ⟨(hc l hl).1, (hc l hl).2.1⟩) []]
          rfl
        · rw [if_neg hcc]
          have hce : c = [] := by
            by_contra hne
            exact hcc (by simp [hasContent, List.length_pos, hne])
          rw [hce]
      · by_cases h3 : q = "Fixed"
        · subst h3
          rw [lk_step_ne _ "Deprecated" _ _ (by decide),
            lk_step_ne _ "Removed" _ _ (by decide), lk_step_eq,
            lk_step_ne _ "Changed" _ _ (by decide),
            lk_step_ne _ "Added" _ _ (by decide)]
          have hinit : List.lookup "Fixed" initSections = some [] := rfl
          have hS : List.lookup "Fixed"
              ([("Added", a), ("Changed", c), ("Fixed", f), ("Removed", rm),
                ("Deprecated", dp)] : List (String × List String)) = some f := rfl
          rw [hinit, hS]
          by_cases hcf : hasContent f
          · rw [if_pos hcf, Option.map_some',
              foldl_addCommit_good f (fun l hl => ⟨(hf l hl).1, (hf l hl).2.1⟩) []]
            rfl
          · rw [if_neg hcf]
            have hfe : f = [] := by
              by_contra hne
              exact hcf (by simp [hasContent, List.length_pos, hne])
            rw [hfe]
        · by_cases h4 : q = "Removed"
          · subst h4
            rw [lk_step_ne _ "Deprecated" _ _ (by decide), lk_step_eq,
              lk_step_ne _ "Fixed" _ _ (by decide),
              lk_step_ne _ "Changed" _ _ (by decide),
              lk_step_ne _ "Added" _ _ (by decide)]
            have hinit : List.lookup "Removed" initSections = some [] := rfl
            have hS : List.lookup "Removed"
                ([("Added", a), ("Changed", c), ("Fixed", f), ("Removed", rm),
                  ("Deprecated", dp)] : List (String × List String))
                = some rm := rfl
            rw [hinit, hS]
            by_cases hcr : hasContent rm
            · rw [if_pos hcr, Option.map_some',
                foldl_addCommit_good rm
                  (fun l hl => ⟨(hrm l hl).1, (hrm l hl).2.1⟩) []]
              rfl
            · rw [if_neg hcr]
              have hre : rm = [] := by
                by_contra hne
                exact hcr (by simp [hasContent, List.length_pos, hne])
              rw [hre]
          · by_cases h5 : q = "Deprecated"
            · subst h5
              rw [lk_step_eq,
                lk_step_ne _ "Removed" _ _ (by decide),
                lk_step_ne _ "Fixed" _ _ (by decide),
                lk_step_ne _ "Changed" _ _ (by decide),
                lk_step_ne _ "Added" _ _ (by decide)]
              have hinit : List.lookup "Deprecated" initSections = some [] := rfl
              have hS : List.lookup "Deprecated"
                  ([("Added", a), ("Changed", c), ("Fixed", f), ("Removed", rm),
                    ("Deprecated", dp)] : List (String × List String))
                  = some dp := rfl
              rw [hinit, hS]
              by_cases hcd : hasContent dp
              · rw [if_pos hcd, Option.map_some',
                  foldl_addCommit_good dp
                    (fun l hl => ⟨(hdp l hl).1, (hdp l hl).2.1⟩) []]
                rfl
              · rw [if_neg hcd]
                have hde : dp = [] := by
                  by_contra hne
                  exact hcd (by simp [hasContent, List.length_pos, hne])
                rw [hde]
            · rw [lk_step_ne _ "Deprecated" _ _ h5,
                lk_step_ne _ "Removed" _ _ h4,
                lk_step_ne _ "Fixed" _ _ h3,
                lk_step_ne _ "Changed" _ _ h2,
                lk_step_ne _ "Added" _ _ h1]
              have hnotin : q ∉ (["Added", "Changed", "Fixed", "Removed",
                  "Deprecated"] : List String) := by
                simp [h1, h2, h3, h4, h5]
              rw [lookup_none_of_not_mem_fst q initSections
                  (show q ∉ initSections.map Prod.fst from hnotin),
                lookup_none_of_not_mem_fst q
                  ([("Added", a), ("Changed", c), ("Fixed", f),
                    ("Removed", rm), ("Deprecated", dp)] :
                      List (String × List String))
                  (show q ∉ (([("Added", a), ("Changed", c), ("Fixed", f),
                    ("Removed", rm), ("Deprecated", dp)] :
                      List (String × List String)).map Prod.fst) from hnotin)]

/-- Witness for C3 (amended) at a concrete two-populated-section release. -/
theorem release_roundtrip_witness :
    (Release.read (Release.init "1.0.0" "2021-12-25")
        (splitLines (releaseStr
          { version := "1.0.0", date := "2021-12-25",
            sections := [("Added", ["* one"]), ("Changed", []),
              ("Fixed", ["- two", "* three"]), ("Removed", []),
              ("Deprecated", [])], batched := [] }))).sections
      = [("Added", ["* one"]), ("Changed", []),
         ("Fixed", ["- two", "* three"]), ("Removed", []),
         ("Deprecated", [])] :=
  release_roundtrip "1.0.0" "2021-12-25" ["* one"] [] ["- two", "* three"] [] []
    (by decide) (by decide) (by decide) (by decide) (by decide) (by decide)
    (by decide)

/-- Claim C3 (counterexample): populating a release through the real
pipeline from the single commit `"Fix"` stores the bare line `"*"` in the
Fixed section; rendering and re-reading drops it (the bare marker matches
no bullet pattern), so the sequences differ. -/
theorem release_roundtrip_counterexample :
    relC3.sections.lookup "Fixed" = some ["*"] ∧
      ((Release.init "1.0.0" "2021-01-01").read
          (splitLines (releaseStr relC3))).sections.lookup "Fixed" = some [] := by
  constructor <;> decide

/-! ### Document no-op without git (claim C4) -/

/-- Claim C4: when the repository is unavailable (`has_git` is false),
`ChangelogDoc.generate` performs no action at all — no file read or write,
no commit fetch, no gateway call, and the in-memory document unchanged —
and `ChangelogDoc.save` writes nothing either. -/
theorem docGenerate_noop (env : Env) (doc : Doc) (h : doc.hasGit = false) :
    docGenerate env doc = (doc, []) ∧ docSave doc = [] := by
  constructor
  · simp [docGenerate, h]
  · simp [docSave, h]

/-- Witness for C4 at a concrete git-less document. -/
theorem docGenerate_noop_witness :
    docC4.hasGit = false ∧ docGenerate envW docC4 = (docC4, []) ∧
      docSave docC4 = [] :=
  ⟨rfl, (docGenerate_noop envW docC4 rfl).1, (docGenerate_noop envW docC4 rfl).2⟩

/-! ### Explicit heading dates are never used (claim C2) -/

/-- Claim C2 (code evaluated at the failing input): reading the heading
`## 1.2.0 - 2021-12-25` splits on every `'-'`, producing four parts, so
the `parts == 2` branch that would take the explicit date can never fire
for the documented `- YYYY-MM-DD` suffix; the date is looked up from the
tags instead (here `2020-01-01`), and stringified `None` when no tag
matches. -/
theorem docRead_ignores_explicit_date :
    ((docRead (some ["## 1.2.0 - 2021-12-25"]) [("v1.2.0", "2020-01-01")]
        []).lookup "1.2.0").map (fun r => r.date) = some "2020-01-01" ∧
      ((docRead (some ["## 1.2.0 - 2021-12-25"]) []
        []).lookup "1.2.0").map (fun r => r.date) = some "None" ∧
      splitOnChar '-' "1.2.0 - 2021-12-25" =
        ["1.2.0 ", " 2021", "12", "25"] ∧
      "2020-01-01" ≠ "2021-12-25" := by
  refine ⟨by decide, by decide, by decide, by decide⟩

/-! ### The tag walk of `ChangelogDoc.generate` (claim C8) -/

theorem tagWalk_cons (env : Env) (tagName tagDate : String)
    (rest : List (String × String)) (releases : List (String × Release)) :
    tagWalk env ((tagName, tagDate) :: rest) releases =
      if containsKey releases (vless tagName) then tagWalk env rest releases
      else
        ((tagWalk env rest (upsert releases (vless tagName)
            (releaseGenerate env.gateway env.commits
              (Release.init (vless tagName) tagDate) (windowStart rest)).1)).1,
          (releaseGenerate env.gateway env.commits
            (Release.init (vless tagName) tagDate) (windowStart rest)).2 ++
          (tagWalk env rest (upsert releases (vless tagName)
            (releaseGenerate env.gateway env.commits
              (Release.init (vless tagName) tagDate) (windowStart rest)).1)).2) := by
  rfl

theorem beq_comm_str (a b : String) : (a == b) = (b == a) := by
  by_cases h : a = b
  · simp [h]
  · have h2 : ¬ b = a := fun hc => h hc.symm
    simp [h, h2]

theorem any_map_replace (k q : String) (v : Release) :
    ∀ m : List (String × Release),
      ((m.map (fun p => if p.1 = k then (k, v) else p)).any fun p => p.1 == q)
        = m.any fun p => p.1 == q := by
  intro m
  induction m with
  | nil => rfl
  | cons p rest ih =>
    rw [List.map_cons, List.any_cons, List.any_cons, ih]
    by_cases hp : p.1 = k
    · rw [if_pos hp, hp]
    · rw [if_neg hp]

theorem containsKey_upsert (m : List (String × Release)) (k : String)
    (v : Release) (q : String) :
    containsKey (upsert m k v) q = (containsKey m q || (q == k)) := by
  by_cases h : m.any (fun p => p.1 == k)
  · rw [upsert, if_pos h]
    show ((m.map fun p => if p.1 = k then (k, v) else p).any fun p => p.1 == q) = _
    rw [any_map_replace k q v m]
    by_cases hqk : q = k
    · subst hqk
      have hq : (m.any fun p => p.1 == q) = true := h
      rw [containsKey, hq]
      simp
    · have hbeq : (q == k) = false := by simp [hqk]
      rw [containsKey, hbeq, Bool.or_false]
  · rw [upsert, if_neg h]
    show ((m ++ [(k, v)]).any fun p => p.1 == q) = _
    rw [List.any_append]
    have hone : ([(k, v)].any fun p => p.1 == q) = (q == k) := by
      show ((k == q) || false) = (q == k)
      rw [Bool.or_false, beq_comm_str]
    rw [hone]
    rfl

theorem lookup_map_replace_self (k : String) (v : Release) :
    ∀ m : List (String × Release), (m.any fun p => p.1 == k) = true →
      List.lookup k (m.map fun p => if p.1 = k then (k, v) else p) = some v := by
  intro m
  induction m with
  | nil => intro h; simp at h
  | cons p rest ih =>
    intro h
    by_cases hp : p.1 = k
    · rw [List.map_cons, if_pos hp, List.lookup_cons]
      simp
    · rw [List.map_cons, if_neg hp, List.lookup_cons]
      have hbeq : (k == p.1) = false := by
        simp only [beq_eq_false_iff_ne, ne_eq]
        exact fun hc => hp hc.symm
      rw [hbeq]
      have hbf : (p.1 == k) = false := by simp [hp]
      rw [List.any_cons, hbf, Bool.false_or] at h
      exact ih h

theorem lookup_append_right_single (k : String) (v : Release) :
    ∀ m : List (String × Release), (m.any fun p => p.1 == k) = false →
      List.lookup k (m ++ [(k, v)]) = some v := by
  intro m
  induction m with
  | nil =>
    intro _
    show List.lookup k [(k, v)] = some v
    rw [List.lookup_cons]
    simp
  | cons p rest ih =>
    intro h
    rw [List.any_cons] at h
    have hp : (p.1 == k) = false := by
      cases hb : (p.1 == k)
      · rfl
      · rw [hb] at h; simp at h
    have hr : (rest.any fun p => p.1 == k) = false := by
      cases hb : rest.any fun p => p.1 == k
      · rfl
      · rw [hb, hp] at h; simp at h
    have hbeq : (k == p.1) = false := by rw [beq_comm_str]; exact hp
    rw [List.cons_append, List.lookup_cons, hbeq]
    exact ih hr

theorem lookup_upsert_self (m : List (String × Release)) (k : String)
    (v : Release) : List.lookup k (upsert m k v) = some v := by
  by_cases h : m.any (fun p => p.1 == k)
  · rw [upsert, if_pos h]
    exact lookup_map_replace_self k v m h
  · rw [upsert, if_neg h]
    exact lookup_append_right_single k v m (by
      cases hb : m.any fun p => p.1 == k
      · rfl
      · exact absurd hb h)

theorem lookup_map_replace_ne (k q : String) (v : Release) (h : ¬ q = k) :
    ∀ m : List (String × Release),
      List.lookup q (m.map fun p => if p.1 = k then (k, v) else p)
        = List.lookup q m := by
  intro m
  induction m with
  | nil => rfl
  | cons p rest ih =>
    rw [List.map_cons, List.lookup_cons, List.lookup_cons]
    by_cases hpk : p.1 = k
    · rw [if_pos hpk]
      have hbeq : (q == k) = false := by simp [h]
      have hbeq2 : (q == p.1) = false := by rw [hpk]; exact hbeq
      rw [hbeq, hbeq2]
      exact ih
    · rw [if_neg hpk]
      cases hb : (q == p.1)
      · exact ih
      · rfl

theorem lookup_upsert_ne (m : List (String × Release)) (k : String)
    (v : Release) (q : String) (h : ¬ q = k) :
    List.lookup q (upsert m k v) = List.lookup q m := by
  by_cases hp : m.any (fun p => p.1 == k)
  · rw [upsert, if_pos hp]
    exact lookup_map_replace_ne k q v h m
  · rw [upsert, if_neg hp]
    have hbeq : (q == k) = false := by simp [h]
    induction m with
    | nil =>
      show List.lookup q [(k, v)] = List.lookup q []
      rw [List.lookup_cons, hbeq]
    | cons p rest ih =>
      rw [List.cons_append, List.lookup_cons, List.lookup_cons]
      cases hb : (q == p.1)
      · apply ih
        cases hr : rest.any fun p2 => p2.1 == k
        · simp
        · exfalso
          apply hp
          rw [List.any_cons, hr]
          simp
      · rfl

theorem containsKey_lookup_isSome (m : List (String × Release)) (q : String) :
    containsKey m q = (List.lookup q m).isSome := by
  induction m with
  | nil => rfl
  | cons p rest ih =>
    rw [containsKey, List.any_cons, List.lookup_cons]
    cases hb : (p.1 == q)
    · have hb2 : (q == p.1) = false := by rw [beq_comm_str]; exact hb
      rw [hb2]
      simpa [containsKey] using ih
    · have hb2 : (q == p.1) = true := by rw [beq_comm_str]; exact hb
      rw [hb2]
      simp

theorem tagWalk_lookup_present (env : Env) (tags : List (String × String)) :
    ∀ (releases : List (String × Release)) (q : String),
      containsKey releases q = true →
      List.lookup q (tagWalk env tags releases).1 = List.lookup q releases := by
  induction tags with
  | nil => intro releases q _; rfl
  | cons t rest ih =>
    intro releases q h
    obtain ⟨n, d2⟩ := t
    by_cases hc : containsKey releases (vless n)
    · rw [tagWalk_cons, if_pos hc]
      exact ih releases q h
    · rw [tagWalk_cons, if_neg hc]
      have hq_ne : ¬ q = vless n := by
        intro hc2
        rw [hc2] at h
        exact absurd h (by simp [hc])
      have hcup : containsKey (upsert releases (vless n)
          (releaseGenerate env.gateway env.commits
            (Release.init (vless n) d2) (windowStart rest)).1) q = true := by
        rw [containsKey_upsert, h]
        rfl
      rw [ih _ q hcup, lookup_upsert_ne _ _ _ _ hq_ne]

theorem specTagEffects_congr (env : Env) (tags : List (String × String)) :
    ∀ r1 r2 : List (String × Release),
      (∀ p ∈ tags, containsKey r1 (vless p.1) = containsKey r2 (vless p.1)) →
      specTagEffects env r1 tags = specTagEffects env r2 tags := by
  induction tags with
  | nil => intro r1 r2 _; rfl
  | cons t rest ih =>
    intro r1 r2 h
    obtain ⟨n, d2⟩ := t
    show (if containsKey r1 (vless n) then _ else _) ++ _ = _
    rw [h (n, d2) (by simp), ih r1 r2 (fun p hp => h p (by simp [hp]))]
    rfl

theorem tagWalk_effects (env : Env) (tags : List (String × String))
    (hnd : (tags.map (fun p => vless p.1)).Nodup) :
    ∀ releases : List (String × Release),
      (tagWalk env tags releases).2 = specTagEffects env releases tags := by
  induction tags with
  | nil => intro releases; rfl
  | cons t rest ih =>
    intro releases
    obtain ⟨n, d2⟩ := t
    have hnotin : vless n ∉ rest.map (fun p => vless p.1) :=
      (List.nodup_cons.mp (by simpa using hnd)).1
    have hndr : (rest.map (fun p => vless p.1)).Nodup :=
      (List.nodup_cons.mp (by simpa using hnd)).2
    by_cases hc : containsKey releases (vless n)
    · rw [tagWalk_cons, if_pos hc, ih hndr releases]
      show _ = (if containsKey releases (vless n) then _ else _) ++ _
      rw [if_pos hc, List.nil_append]
    · rw [tagWalk_cons, if_neg hc]
      show _ ++ (tagWalk env rest _).2
          = (if containsKey releases (vless n) then _ else _) ++ _
      rw [if_neg hc, ih hndr]
      have hcong : specTagEffects env
          (upsert releases (vless n)
            (releaseGenerate env.gateway env.commits
              (Release.init (vless n) d2) (windowStart rest)).1) rest
          = specTagEffects env releases rest := by
        apply specTagEffects_congr
        intro p hp
        rw [containsKey_upsert]
        have hne : (vless p.1 == vless n) = false := by
          simp only [beq_eq_false_iff_ne, ne_eq]
          intro hc2
          exact hnotin (hc2 ▸ List.mem_map_of_mem (fun p => vless p.1) hp)
        rw [hne, Bool.or_false]
      rw [hcong]

theorem tagWalk_lookup_absent (env : Env) (tags1 : List (String × String))
    (n d : String) (tags2 : List (String × String)) :
    ∀ releases : List (String × Release),
      ((tags1 ++ (n, d) :: tags2).map (fun p => vless p.1)).Nodup →
      containsKey releases (vless n) = false →
      List.lookup (vless n)
          (tagWalk env (tags1 ++ (n, d) :: tags2) releases).1
        = some (releaseGenerate env.gateway env.commits
            (Release.init (vless n) d) (windowStart tags2)).1 := by
  induction tags1 with
  | nil =>
    intro releases _ habs
    rw [List.nil_append, tagWalk_cons, if_neg (by simp [habs])]
    have hcup : containsKey (upsert releases (vless n)
        (releaseGenerate env.gateway env.commits
          (Release.init (vless n) d) (windowStart tags2)).1) (vless n) = true := by
      rw [containsKey_upsert]
      simp
    rw [tagWalk_lookup_present env tags2 _ _ hcup, lookup_upsert_self]
  | cons t tags1' ih =>
    intro releases hnd habs
    obtain ⟨m, e⟩ := t
    have hnotin : vless m ∉ ((tags1' ++ (n, d) :: tags2).map (fun p => vless p.1)) :=
      (List.nodup_cons.mp (by simpa using hnd)).1
    have hndr : ((tags1' ++ (n, d) :: tags2).map (fun p => vless p.1)).Nodup :=
      (List.nodup_cons.mp (by simpa using hnd)).2
    rw [List.cons_append]
    by_cases hc : containsKey releases (vless m)
    · rw [tagWalk_cons, if_pos hc]
      exact ih releases hndr habs
    · rw [tagWalk_cons, if_neg hc]
      apply ih _ hndr
      rw [containsKey_upsert, habs]
      have hmn : ¬ vless n = vless m := by
        intro hc2
        apply hnotin
        rw [← hc2]
        exact List.mem_map_of_mem _
          (List.mem_append.mpr (Or.inr (List.mem_cons_self _ _)))
      have hnm : (vless n == vless m) = false := by
        simp only [beq_eq_false_iff_ne, ne_eq]
        exact hmn
      rw [hnm]
      rfl

/-- Claim C8: in the tag walk of `ChangelogDoc.generate` (tags in stored
order, newest first, with de-`v`-prefixed names pairwise distinct), every
tag already present as a release key is skipped entirely — it contributes
no effect (no commit fetch, no gateway call) and its stored release is
untouched — and every absent tag gets exactly the release generated with
window start equal to the next-older tag's date, or the sentinel
`1999-01-01` for the oldest tag. -/
theorem tagWalk_contract (env : Env) (tags : List (String × String))
    (releases : List (String × Release))
    (hnd : (tags.map (fun p => vless p.1)).Nodup) :
    (tagWalk env tags releases).2 = specTagEffects env releases tags ∧
      (∀ q, containsKey releases q = true →
        List.lookup q (tagWalk env tags releases).1 = List.lookup q releases) ∧
      (∀ tags1 n d tags2, tags = tags1 ++ (n, d) :: tags2 →
        containsKey releases (vless n) = false →
        List.lookup (vless n) (tagWalk env tags releases).1
          = some (releaseGenerate env.gateway env.commits
              (Release.init (vless n) d) (windowStart tags2)).1) := by
  refine ⟨tagWalk_effects env tags hnd releases,
    fun q h => tagWalk_lookup_present env tags releases q h,
    fun tags1 n d tags2 heq habs => ?_⟩
  subst heq
  exact tagWalk_lookup_absent env tags1 n d tags2 releases hnd habs

/-- Witness for C8: two tags, the newer already present, the older absent. -/
theorem tagWalk_contract_witness :
    ((tagsC8.map (fun p => vless p.1)).Nodup ∧
      containsKey relsC8 "2.0.0" = true ∧
      containsKey relsC8 (vless "v1.0.0") = false) ∧
      (tagWalk envW tagsC8 relsC8).2 = specTagEffects envW relsC8 tagsC8 ∧
      List.lookup "2.0.0" (tagWalk envW tagsC8 relsC8).1
        = List.lookup "2.0.0" relsC8 ∧
      List.lookup (vless "v1.0.0") (tagWalk envW tagsC8 relsC8).1
        = some (releaseGenerate envW.gateway envW.commits
            (Release.init (vless "v1.0.0") "2021-01-01") (windowStart [])).1 := by
  refine ⟨⟨by decide, by decide, by decide⟩, ?_, ?_, ?_⟩
  · exact (tagWalk_contract envW tagsC8 relsC8 (by decide)).1
  · exact (tagWalk_contract envW tagsC8 relsC8 (by decide)).2.1 "2.0.0" (by decide)
  · exact (tagWalk_contract envW tagsC8 relsC8 (by decide)).2.2
      [("v2.0.0", "2021-06-01")] "v1.0.0" "2021-01-01" [] rfl (by decide)

/-! ### The project correlator is hashed (claim C9) -/

/-- Claim C9: whenever `requests.post` assembles a request for the
classification endpoint (it assembles none without a credential), the
`project` query parameter is exactly the SHA-224 hex digest of the
configured project name — and never the raw project name itself, the only
conceivable exception being a name that is its own SHA-224 digest. -/
theorem post_project_hashed (cfg : GatewayConfig) (endpoint payload v : String)
    (req : Request)
    (h : buildPost cfg endpoint payload [("version", v)] = some req) :
    List.lookup "project" req.params
        = some (sha224hex (effectiveProjectName cfg)) ∧
      (effectiveProjectName cfg ≠ sha224hex (effectiveProjectName cfg) →
        List.lookup "project" req.params ≠ some (effectiveProjectName cfg)) := by
  cases hk : effectiveApiKey cfg with
  | none =>
    rw [buildPost] at h
    simp only [hk] at h
    exact absurd h (by simp)
  | some k =>
    rw [buildPost] at h
    simp only [hk, Option.some.injEq] at h
    subst h
    constructor
    · rfl
    · intro hne hcontra
      have h1 : List.lookup "project"
          (paramsUpdate [("project", sha224hex (effectiveProjectName cfg))]
            [("version", v)])
          = some (sha224hex (effectiveProjectName cfg)) := rfl
      rw [h1] at hcontra
      exact hne (Option.some.inj hcontra).symm

set_option maxRecDepth 10000 in
/-- Witness for C9: a configuration with a credential and the default
project name; the digest is computed in full and differs from the raw
name. -/
theorem post_project_hashed_witness :
    buildPost cfgW "classify" "[]" [("version", "0.1.0")] = some reqW ∧
      List.lookup "project" reqW.params
        = some (sha224hex (effectiveProjectName cfgW)) ∧
      sha224hex "DefaultProject"
        = "43b19d74ca03b1cd94634041e026c91ba8fb8a0dfba5ab93e17bbbc1" ∧
      List.lookup "project" reqW.params ≠ some (effectiveProjectName cfgW) := by
  refine ⟨rfl, (post_project_hashed cfgW "classify" "[]" "0.1.0" reqW rfl).1,
    by decide, ?_⟩
  exact (post_project_hashed cfgW "classify" "[]" "0.1.0" reqW rfl).2 (by decide)

end Doculog
